import Mathlib

/-!
# Verification of the crawler engine (`apps/crawler`)

A shallow embedding, in Lean 4, of the parts of the Rust crawler that the
specification's testable properties talk about:

* URL normalization (`crawler/frontier.rs::normalize_url`) over a model of the
  `url` crate restricted to URLs of the shape
  `scheme://host/path[?query][#fragment]` (the fragment of the WHATWG grammar
  the crawler actually exercises; `Url::parse` is a third-party collaborator,
  so its behaviour on this fragment is modelled: scheme and host are
  lowercased at parse, a missing path serializes as `/`, strings without a
  scheme or without an authority do not parse).
* The BFS frontier (`crawler/frontier.rs::Frontier`) including a faithful
  model of Rust's `std::collections::BinaryHeap` (`push` with `sift_up`,
  `pop` with swap-remove plus `sift_down_to_bottom` and trailing `sift_up`),
  with `FrontierEntry`'s `Ord` instance comparing `Reverse(depth)` only.
* robots.txt parsing and gating (`crawler/robots.rs`).
* The link merge (`crawler/mod.rs::merge_links`).
* HMAC-SHA256 signing of outbound callbacks (`jobs/mod.rs::send_callback`)
  and the incoming verification middleware (`server/auth.rs::verify_hmac`),
  over an executable SHA-256.
* The job runner control loop (`jobs/mod.rs::run_crawl_job`), with network
  I/O and task scheduling abstracted into an explicit event schedule.
* The per-domain rate computation (`jobs/mod.rs` / `crawler/fetcher.rs`).
-/

namespace Crawler

set_option maxRecDepth 400000

/-! ## Character helpers (ASCII case folding, as exercised by the crawler) -/

/-- ASCII lower-casing of a single character (`str::to_lowercase` restricted
to ASCII, which is all the crawler's URLs and robots directives use). -/
def asciiLower (c : Char) : Char :=
  match c with
  | 'A' => 'a' | 'B' => 'b' | 'C' => 'c' | 'D' => 'd' | 'E' => 'e' | 'F' => 'f'
  | 'G' => 'g' | 'H' => 'h' | 'I' => 'i' | 'J' => 'j' | 'K' => 'k' | 'L' => 'l'
  | 'M' => 'm' | 'N' => 'n' | 'O' => 'o' | 'P' => 'p' | 'Q' => 'q' | 'R' => 'r'
  | 'S' => 's' | 'T' => 't' | 'U' => 'u' | 'V' => 'v' | 'W' => 'w' | 'X' => 'x'
  | 'Y' => 'y' | 'Z' => 'z'
  | c => c

/-- ASCII letter test. -/
def isAlphaAscii (c : Char) : Bool :=
  ('a' ≤ c ∧ c ≤ 'z') ∨ ('A' ≤ c ∧ c ≤ 'Z')

/-- ASCII digit test. -/
def isDigitAscii (c : Char) : Bool :=
  '0' ≤ c ∧ c ≤ '9'

/-- Characters allowed after the first character of a URL scheme. -/
def isSchemeTail (c : Char) : Bool :=
  isAlphaAscii c || isDigitAscii c || c = '+' || c = '-' || c = '.'

/-! ## A model of `url::Url` (the WHATWG fragment the crawler exercises) -/

/-- Split a character list at the first occurrence of `sep`:
`breakAt sep l = some (before, after)` with `l = before ++ sep :: after`
and `sep ∉ before`; `none` when `sep` does not occur. -/
def breakAt (sep : Char) : List Char → Option (List Char × List Char)
  | [] => none
  | x :: xs =>
    if x = sep then some ([], xs)
    else match breakAt sep xs with
      | some (a, b) => some (x :: a, b)
      | none => none

/-- Like `breakAt` but keeps the whole list when `sep` is absent. -/
def splitOpt (sep : Char) (l : List Char) : List Char × Option (List Char) :=
  match breakAt sep l with
  | some (a, b) => (a, some b)
  | none => (l, none)

/-- Model of a parsed `url::Url` for URLs with an authority. `scheme` and
`host` are stored lowercased (the `url` crate lowercases both at parse);
`path` always starts with `/`; `query`/`fragment` are kept verbatim without
their `?`/`#` separators. -/
structure UrlM where
  scheme : List Char
  host : List Char
  path : List Char
  query : Option (List Char)
  fragment : Option (List Char)
  deriving Repr, DecidableEq

/-- Scheme validity: nonempty, ASCII letter first, then letters, digits,
`+`, `-`, `.`. -/
def schemeOk : List Char → Bool
  | [] => false
  | c :: cs => isAlphaAscii c && cs.all isSchemeTail

/-- Authority-and-after part of URL parsing: `rest2` is everything after
`scheme://`. The fragment is split off at the first `#`, the query at the
first `?` before that, the host ends at the first `/` before that (a missing
path becomes `/`, as the `url` crate serializes it). An empty host is a
parse error. -/
def parseAuthority (sch rest2 : List Char) : Option UrlM :=
  let pf := splitOpt '#' rest2
  let pq := splitOpt '?' pf.1
  let hp :=
    match breakAt '/' pq.1 with
    | some (h, p) => (h, '/' :: p)
    | none => (pq.1, ['/'])
  if hp.1.isEmpty then none
  else some ⟨sch.map asciiLower, hp.1.map asciiLower, hp.2, pq.2, pf.2⟩

/-- Model of `url::Url::parse` on the grammar
`scheme://host/path[?query][#fragment]`. Inputs without a scheme or without
the `//` authority marker (e.g. `"/"`, `"mailto:x@y"`, `"not-a-valid-url"`)
return `none`, matching the call sites' treatment of unparseable URLs (the
crawler never inspects the parse of a non-authority URL: such links are
filtered out beforehand or fall into the same skip branch). -/
def parseChars (l : List Char) : Option UrlM :=
  match breakAt ':' l with
  | none => none
  | some (sch, rest) =>
    if schemeOk sch then
      match rest with
      | '/' :: '/' :: rest2 => parseAuthority sch rest2
      | _ => none
    else none

/-- Model of `url::Url::to_string`: reassemble the components. -/
def urlToChars (u : UrlM) : List Char :=
  u.scheme ++ ':' :: '/' :: '/' ::
    (u.host ++ u.path
      ++ (match u.query with | some q => '?' :: q | none => [])
      ++ (match u.fragment with | some f => '#' :: f | none => []))

/-- The two mutations `normalize_url` performs on a parsed URL:
`set_fragment(None)`, then drop the final path character when
`path.len() > 1 && path.ends_with('/')`. -/
def dropFragAndSlash (u : UrlM) : UrlM :=
  let u1 : UrlM := { u with fragment := none }
  if 1 < u1.path.length ∧ u1.path.getLast? = some '/' then
    { u1 with path := u1.path.dropLast }
  else u1

/-- `crawler/frontier.rs::normalize_url`, on character lists: parse, drop the
fragment, drop one trailing slash from the path unless the path is just `/`
(`path.len() > 1 && path.ends_with('/')`), serialize. -/
def normChars (l : List Char) : Option (List Char) :=
  (parseChars l).map fun u => urlToChars (dropFragAndSlash u)

/-- `crawler/frontier.rs::normalize_url` on strings. -/
def normalize_url (s : String) : Option String :=
  (normChars s.data).map fun l => String.mk l

/-- `url::Url::parse` on strings (model). -/
def urlParse (s : String) : Option UrlM := parseChars s.data

/-- `Url::host_str()` of a parsed URL, as a string. -/
def UrlM.hostStr (u : UrlM) : String := String.mk u.host

/-- `Url::scheme()` of a parsed URL, as a string. -/
def UrlM.schemeStr (u : UrlM) : String := String.mk u.scheme

/-- `Url::path()` of a parsed URL, as a string. -/
def UrlM.pathStr (u : UrlM) : String := String.mk u.path

/-! ### Canonical parsed URLs and the parse/serialize round trip -/

/-- Shape invariants enjoyed by every URL that `parseChars` produces.
They are exactly what is needed for `urlToChars` to parse back to the same
`UrlM`. -/
def PCanon (u : UrlM) : Prop :=
  schemeOk u.scheme = true ∧
  u.scheme.map asciiLower = u.scheme ∧
  u.host ≠ [] ∧
  u.host.map asciiLower = u.host ∧
  '#' ∉ u.host ∧ '?' ∉ u.host ∧ '/' ∉ u.host ∧
  (∃ p, u.path = '/' :: p) ∧
  '#' ∉ u.path ∧ '?' ∉ u.path ∧
  (∀ q, u.query = some q → '#' ∉ q)

/-! ## The frontier (`crawler/frontier.rs`) and Rust's `BinaryHeap`

`Frontier` keeps its queue in a `std::collections::BinaryHeap<FrontierEntry>`
whose `Ord` instance compares `Reverse(self.depth)` with
`Reverse(other.depth)` — depth only, shallowest first, nothing else.  The
heap is modelled as its backing vector (`List FrontierEntry` in array
layout), with `push` and `pop` transcribed from the Rust standard library:
`push` appends and sifts up; `pop` swap-removes the root with the last
element and restores the heap shape with `sift_down_to_bottom` (walk the
hole to the bottom along the greater-child path, then sift the moved
element up). -/

/-- `crawler/frontier.rs::FrontierEntry`. -/
structure FrontierEntry where
  url : String
  depth : Nat
  deriving Repr, DecidableEq

/-- `impl Ord for FrontierEntry`:
`Reverse(self.depth).cmp(&Reverse(other.depth))`. -/
def entryCmp (a b : FrontierEntry) : Ordering := compare b.depth a.depth

/-- Rust's `a <= b` derived from `Ord::cmp` (`cmp(a,b) != Greater`). -/
def entryLe (a b : FrontierEntry) : Bool := entryCmp a b ≠ Ordering.gt

/-- In-bounds element access of the heap's backing vector (every access the
Rust code performs is in bounds; the default is never read). -/
def getE (l : List FrontierEntry) (i : Nat) : FrontierEntry :=
  l.getD i ⟨"", 0⟩

/-- Exchange positions `i` and `j` (the `Hole` moves of the Rust sift loops
are swaps of the moving element with the visited slot). -/
def swapE (l : List FrontierEntry) (i j : Nat) : List FrontierEntry :=
  (l.set i (getE l j)).set j (getE l i)

/-- The loop body of `BinaryHeap::sift_up(start, pos)`: while the element
at `pos` is strictly greater (in `Ord` order, i.e. strictly shallower) than
its parent, move it up; stop at `start`. The `fuel` argument only bounds
the iteration count so the recursion is structural (each step moves to the
parent, so `pos + 1` iterations always suffice; see `siftUp`): it never
runs out on the calls the heap makes. -/
def siftUpGo (fuel : Nat) (l : List FrontierEntry) (start pos : Nat) :
    List FrontierEntry :=
  match fuel with
  | 0 => l
  | fuel + 1 =>
    if pos ≤ start then l
    else
      let parent := (pos - 1) / 2
      if entryLe (getE l pos) (getE l parent) then l
      else siftUpGo fuel (swapE l pos parent) start parent

/-- `BinaryHeap::sift_up(start, pos)`. -/
def siftUp (l : List FrontierEntry) (start pos : Nat) : List FrontierEntry :=
  siftUpGo (pos + 1) l start pos

/-- The hole-to-bottom walk of `BinaryHeap::sift_down_to_bottom`: while two
children exist, move to the greater child (ties pick the right child, per
`child += (hole.get(child) <= hole.get(child + 1)) as usize`); if exactly
the left child remains, move into it. Returns the vector and the final
position of the moved element. `fuel` bounds the iteration count so the
recursion is structural (the position strictly descends in a tree of
`l.length` slots, so `l.length` iterations suffice; see `sdbLoop`). -/
def sdbLoopGo (fuel : Nat) (l : List FrontierEntry) (pos : Nat) :
    List FrontierEntry × Nat :=
  match fuel with
  | 0 => (l, pos)
  | fuel + 1 =>
    let child := 2 * pos + 1
    if child + 1 < l.length then
      let child' := if entryLe (getE l child) (getE l (child + 1)) then child + 1
        else child
      sdbLoopGo fuel (swapE l pos child') child'
    else if child + 1 = l.length then
      (swapE l pos child, child)
    else
      (l, pos)

/-- The hole-to-bottom walk of `BinaryHeap::sift_down_to_bottom`. -/
def sdbLoop (l : List FrontierEntry) (pos : Nat) : List FrontierEntry × Nat :=
  sdbLoopGo l.length l pos

/-- `BinaryHeap::sift_down_to_bottom(pos)`: walk the hole to the bottom,
then sift the displaced element back up from there (bounded below by the
original `pos`). -/
def siftDownToBottom (l : List FrontierEntry) (pos : Nat) : List FrontierEntry :=
  let lp := sdbLoop l pos
  siftUp lp.1 pos lp.2

/-- `BinaryHeap::push`: append, then sift up from the last slot. -/
def heapPush (l : List FrontierEntry) (x : FrontierEntry) : List FrontierEntry :=
  siftUp (l ++ [x]) 0 l.length

/-- `BinaryHeap::pop`: remove the last element; if the heap is still
non-empty, swap it with the root, return the old root, and restore with
`sift_down_to_bottom(0)`. -/
def heapPop (l : List FrontierEntry) :
    Option (FrontierEntry × List FrontierEntry) :=
  match l.getLast? with
  | none => none
  | some item =>
    let rest := l.dropLast
    if rest.isEmpty then some (item, [])
    else some (getE rest 0, siftDownToBottom (rest.set 0 item) 0)

/-- `crawler/frontier.rs::Frontier`: the heap-backed queue, the seen-set
(modelled as the list of inserted normalized URLs), `max_depth`, and the
crawled counter. -/
structure Frontier where
  queue : List FrontierEntry
  seen : List String
  max_depth : Nat
  crawled : Nat
  deriving Repr

/-- `Frontier::new`: normalize each seed; the ones whose normalized form is
new to the seen-set are pushed at depth 0, in seed order. -/
def Frontier.new (seeds : List String) (maxDepth : Nat) : Frontier :=
  let init := seeds.foldl
    (fun (acc : List FrontierEntry × List String) raw =>
      match normalize_url raw with
      | some n => if n ∈ acc.2 then acc else (heapPush acc.1 ⟨n, 0⟩, n :: acc.2)
      | none => acc)
    ([], [])
  ⟨init.1, init.2, maxDepth, 0⟩

/-- `Frontier::next`: pop the heap; on success increment the crawled
counter and return the entry. -/
def Frontier.next (f : Frontier) : Option ((String × Nat) × Frontier) :=
  match heapPop f.queue with
  | some (e, q') =>
    some ((e.url, e.depth), { f with queue := q', crawled := f.crawled + 1 })
  | none => none

/-- `Frontier::add_discovered`: a no-op beyond `max_depth`; otherwise
normalize each URL and push the ones new to the seen-set at the given
depth. -/
def Frontier.addDiscovered (f : Frontier) (urls : List String) (depth : Nat) :
    Frontier :=
  if f.max_depth < depth then f
  else urls.foldl
    (fun acc raw =>
      match normalize_url raw with
      | some n =>
        if n ∈ acc.seen then acc
        else { acc with queue := heapPush acc.queue ⟨n, depth⟩,
                        seen := n :: acc.seen }
      | none => acc)
    f

/-- `Frontier::pending_count`. -/
def Frontier.pendingCount (f : Frontier) : Nat := f.queue.length

/-- `Frontier::crawled_count`. -/
def Frontier.crawledCount (f : Frontier) : Nat := f.crawled

/-- A frontier operation: the public mutators between construction and
exhaustion. -/
inductive FOp where
  | add (urls : List String) (depth : Nat)
  | next
  deriving Repr

/-- Run a sequence of frontier operations; collect every `(url, depth)` that
`Frontier::next` emits, in emission order. -/
def runFrontier : Frontier → List FOp → Frontier × List (String × Nat)
  | f, [] => (f, [])
  | f, FOp.add urls d :: ops => runFrontier (f.addDiscovered urls d) ops
  | f, FOp.next :: ops =>
    match f.next with
    | some (e, f') =>
      let r := runFrontier f' ops
      (r.1, e :: r.2)
    | none => runFrontier f ops

/-! ### The heap-order invariant

Rust's `BinaryHeap` is a max-heap for `Ord`; with `FrontierEntry`'s
`Reverse(depth)` ordering that is a min-heap on `depth`. `Edge i j` says
slot `j` is a child of slot `i` in the array layout. -/

/-- `j` is a child slot of `i` in the implicit binary tree. -/
def Edge (i j : Nat) : Prop := j = 2*i+1 ∨ j = 2*i+2

/-- The heap-order invariant of the backing vector: along every in-bounds
edge, the parent's depth is at most the child's. -/
def IsHeap (l : List FrontierEntry) : Prop :=
  ∀ i j, Edge i j → j < l.length → (getE l i).depth ≤ (getE l j).depth

/-- Invariant of the `sift_up` loop: all edges hold except possibly the one
into `pos`, and the element above `pos` dominates `pos`'s children. -/
def UpInv (l : List FrontierEntry) (pos : Nat) : Prop :=
  (∀ i j, Edge i j → j < l.length → j ≠ pos →
    (getE l i).depth ≤ (getE l j).depth) ∧
  (0 < pos → ∀ j, Edge pos j → j < l.length →
    (getE l ((pos-1)/2)).depth ≤ (getE l j).depth)

/-- Invariant of the hole-to-bottom walk: all edges not incident to `pos`
hold, and the element above `pos` dominates `pos`'s children. -/
def DownInv (l : List FrontierEntry) (pos : Nat) : Prop :=
  (∀ i j, Edge i j → j < l.length → i ≠ pos → j ≠ pos →
    (getE l i).depth ≤ (getE l j).depth) ∧
  (0 < pos → ∀ j, Edge pos j → j < l.length →
    (getE l ((pos-1)/2)).depth ≤ (getE l j).depth)

/-! ### Frontier state invariant: the queue is a heap, every queued or
emitted URL is in the seen-set, and no URL occurs twice among the emitted
and queued URLs together. -/

/-- Invariant tying a frontier state to the list of URLs emitted so far. -/
def StInv (f : Frontier) (emitted : List String) : Prop :=
  IsHeap f.queue ∧
  (∀ e ∈ f.queue, e.url ∈ f.seen) ∧
  (∀ u ∈ emitted, u ∈ f.seen) ∧
  (emitted ++ f.queue.map FrontierEntry.url).Nodup

/-! ## robots.txt (`crawler/robots.rs`)

`RobotsChecker` keeps a map from lowercased user-agent to the list of its
`Disallow:` path prefixes. The `HashMap` is modelled as an association list
(only keyed lookup is performed, so iteration order never matters). -/

/-- ASCII whitespace, as trimmed by `str::trim` on robots lines. -/
def isWsChar (c : Char) : Bool := c = ' ' ∨ c = '\t' ∨ c = '\r' ∨ c = '\n'

/-- `str::trim` (ASCII fragment). -/
def trimChars (l : List Char) : List Char :=
  ((l.dropWhile isWsChar).reverse.dropWhile isWsChar).reverse

/-- Split into lines at `'\n'` (a trailing newline yields no extra empty
line, as with `str::lines`; carriage returns are removed by the `trim` every
line immediately receives). -/
def linesOf (l : List Char) : List (List Char) :=
  let parts := go l
  match parts.getLast? with
  | some [] => parts.dropLast
  | _ => parts
where
  go : List Char → List (List Char)
    | [] => [[]]
    | c :: rest =>
      if c = '\n' then [] :: go rest
      else match go rest with
        | line :: more => (c :: line) :: more
        | [] => [[c]]

/-- `rules.entry(agent).or_default().push(value)` on the association-list
model of the rules map. -/
def rulesPush : List (String × List String) → String → String →
    List (String × List String)
  | [], a, v => [(a, [v])]
  | (k, vs) :: rest, a, v =>
    if k = a then (k, vs ++ [v]) :: rest else (k, vs) :: rulesPush rest a v

/-- `rules.get(agent)`. -/
def rulesGet : List (String × List String) → String → Option (List String)
  | [], _ => none
  | (k, vs) :: rest, a => if k = a then some vs else rulesGet rest a

/-- `RobotsChecker::parse_robots_txt`: line-oriented scan. Each line is
trimmed; a `#` starts a comment (the prefix before it is re-trimmed); an
empty line clears the current user-agent group; `user-agent:` adds a
lowercased agent to the group; `disallow:` records the value for every
agent of the current group; other keys are ignored. -/
def parse_robots_txt (content : String) : List (String × List String) :=
  ((linesOf content.data).foldl
    (fun (st : List (String × List String) × List String) rawLine =>
      let line := trimChars rawLine
      let line := match breakAt '#' line with
        | some (before, _) => trimChars before
        | none => line
      if line.isEmpty then (st.1, [])
      else match breakAt ':' line with
        | some (key, value) =>
          let keyS := String.mk ((trimChars key).map asciiLower)
          let valS := String.mk (trimChars value)
          if keyS = "user-agent" then
            (st.1, st.2 ++ [String.mk ((trimChars value).map asciiLower)])
          else if keyS = "disallow" then
            (st.2.foldl (fun r agent => rulesPush r agent valS) st.1, st.2)
          else st
        | none => st)
    ([], [])).1

/-- `str::starts_with` on character lists. -/
def startsWithChars : List Char → List Char → Bool
  | _, [] => true
  | [], _ :: _ => false
  | c :: cs, p :: ps => c = p && startsWithChars cs ps

/-- `RobotsChecker::is_allowed`: derive the path via `Url::parse` (an
unparseable URL — including the bare path `"/"` — is allowed); check the
lowercased specific agent first, then the wildcard; a rule matches when the
path starts with a non-empty `Disallow` prefix. -/
def is_allowed (rules : List (String × List String)) (url ua : String) : Bool :=
  match urlParse url with
  | none => true
  | some u =>
    let agents := [String.mk (ua.data.map asciiLower), "*"]
    !(agents.any fun agent =>
      match rulesGet rules agent with
      | some pats =>
        pats.any fun pat => !pat.data.isEmpty && startsWithChars u.path pat.data
      | none => false)

/-- `robots.rs::AI_BOT_USER_AGENTS`. -/
def AI_BOT_USER_AGENTS : List String :=
  ["GPTBot", "ClaudeBot", "PerplexityBot", "GoogleOther"]

/-- `RobotsChecker::blocked_bots`. -/
def blocked_bots (rules : List (String × List String)) (url : String) :
    List String :=
  AI_BOT_USER_AGENTS.filter fun ua => !is_allowed rules url ua

/-- The bootstrap computation in `JobManager::run_crawl_job`:
`site_context.ai_crawlers_blocked = checker.blocked_bots("/")`. -/
def ai_crawlers_blocked_bootstrap (content : String) : List String :=
  blocked_bots (parse_robots_txt content) "/"

/-! ## Link merge (`crawler/mod.rs::merge_links`)

Static links are the baseline; rendered links only add new URLs. The
`HashSet<String>` dedup sets are modelled as membership lists. -/

/-- `renderer::RenderedLink`. -/
structure RenderedLink where
  url : String
  anchor_text : String
  rel : String
  deriving Repr, DecidableEq

/-- `models::ExtractedLink`. -/
structure ExtractedLink where
  url : String
  anchor_text : String
  rel : String
  is_external : Bool
  deriving Repr, DecidableEq

/-- `crawler/mod.rs::is_navigable_url`: rendered links with
`javascript:`, `mailto:`, `tel:` or `data:` prefixes are filtered out. -/
def is_navigable_url (url : String) : Bool :=
  !(startsWithChars url.data "javascript:".data)
    && !(startsWithChars url.data "mailto:".data)
    && !(startsWithChars url.data "tel:".data)
    && !(startsWithChars url.data "data:".data)

/-- Mutable state of the `merge_links` loop: the two dedup sets and the
three output lists. -/
structure MergeSt where
  iset : List String
  eset : List String
  mi : List String
  me : List String
  md : List ExtractedLink
  deriving Repr, DecidableEq

/-- One iteration of the rendered-links loop of `merge_links`. -/
def mergeStep (page_host : Option String) (extUrls : List String)
    (st : MergeSt) (link : RenderedLink) : MergeSt :=
  if !is_navigable_url link.url then st
  else match urlParse link.url with
    | none => st
    | some pu =>
      if pu.schemeStr ≠ "http" ∧ pu.schemeStr ≠ "https" then st
      else
        let is_internal : Bool := match page_host with
          | some ph => decide (ph = pu.hostStr)
          | none => false
        if is_internal then
          if link.url ∈ st.iset then st
          else { st with iset := link.url :: st.iset, mi := st.mi ++ [link.url] }
        else
          let st1 := if link.url ∈ st.eset then st
            else { st with eset := link.url :: st.eset, me := st.me ++ [link.url] }
          if link.url ∈ extUrls then st1
          else { st1 with
            md := st1.md ++ [⟨link.url, link.anchor_text, link.rel, true⟩] }

/-- `crawler/mod.rs::merge_links`. Returns
`(merged_internal, merged_external, merged_external_details)`. A missing or
empty rendered list returns the static lists unchanged. In the model every
parsed URL has a host, so `link_host` is always present and
`is_internal` reduces to comparing hosts when the page URL parses. -/
def merge_links (static_internal static_external : List String)
    (static_external_details : List ExtractedLink)
    (rendered : Option (List RenderedLink)) (page_url : String) :
    List String × List String × List ExtractedLink :=
  match rendered with
  | none => (static_internal, static_external, static_external_details)
  | some [] => (static_internal, static_external, static_external_details)
  | some links =>
    let page_host := (urlParse page_url).map UrlM.hostStr
    let st := links.foldl
      (mergeStep page_host (static_external_details.map ExtractedLink.url))
      ⟨static_internal, static_external,
        static_internal, static_external, static_external_details⟩
    (st.mi, st.me, st.md)

/-- The merge-loop invariant: each output list mirrors its dedup set and
stays duplicate-free. -/
def MergeInv (st : MergeSt) : Prop :=
  st.mi.Nodup ∧ (∀ u, u ∈ st.mi ↔ u ∈ st.iset) ∧
  st.me.Nodup ∧ (∀ u, u ∈ st.me ↔ u ∈ st.eset)

/-- `jobs/mod.rs::run_crawl_job` (rate setup): the requests-per-second value
computed from `CrawlConfig.rate_limit_ms` (a `u32`; `1000 / ms` is integer
division). -/
def ratePerSec (rate_limit_ms : Nat) : Nat :=
  if rate_limit_ms > 0 then max (1000 / rate_limit_ms) 1 else 2

/-- `crawler/fetcher.rs::RateLimitedFetcher::new`: the stored
`rate_per_second` is the argument clamped by `.max(1)`. -/
def fetcherRate (rate_per_second : Nat) : Nat := max rate_per_second 1

/-- `std::num::NonZeroU32::new` as used in
`crawler/fetcher.rs::RateLimitedFetcher::get_limiter`. -/
def nonZeroU32New (n : Nat) : Option Nat := if n = 0 then none else some n

/-! ### The job runner loop (`jobs/mod.rs::run_crawl_job`, lines 356-521) -/

/-- The outcome of one worker task, as matched in the `join_next` arm:
success with the page's extracted internal links, `BlockedByRobots`, any
other crawl error, or a panicked task (`join_next` returned `Err`). -/
inductive Outcome where
  | ok (links : List String)
  | blocked
  | errored
  | panicked
  deriving Repr, DecidableEq

/-- One event of the `tokio::select!`: the cancellation token fires, or the
in-flight task at position `idx` finishes with outcome `out` (`timer`
records whether `last_batch_time.elapsed() >= batch_interval_secs` at that
moment). -/
inductive REvent where
  | cancel
  | complete (idx : Nat) (out : Outcome) (timer : Bool)
  deriving Repr, DecidableEq

/-- An emitted `CrawlResultBatch`, reduced to the fields the claims speak
about; `pages` holds the frontier URL of each page in the batch. -/
structure BatchM where
  index : Nat
  is_final : Bool
  pages : List String
  deriving Repr, DecidableEq

/-- Runner configuration: the job manager's `max_concurrent_fetches` and
`batch_page_threshold`, and the crawl config's `max_pages` (a `u32`,
modelled as `Nat`) and `extract_links`. -/
structure RConfig where
  maxWorkers : Nat
  maxPages : Nat
  extractLinks : Bool
  batchThreshold : Nat
  deriving Repr

/-- The runner's mutable state across loop iterations. `inflight` lists the
spawned, unfinished tasks in spawn order; `sent` collects the batches handed
to `send_callback` in order; `cancelled` records that the cancellation
branch was taken. -/
structure RunnerSt where
  frontier : Frontier
  inflight : List (String × Nat)
  pages_crawled : Nat
  pages_errored : Nat
  batch_pages : List String
  batch_index : Nat
  sent : List BatchM
  cancelled : Bool
  deriving Repr

/-- The worker-fill `while` loop:
`while join_set.len() < max_workers { if pages_crawled + join_set.len() >=
max_pages { break } ... frontier.next() ... }`. Each pass spawns one task,
so `max_workers` passes of fuel reproduce the loop exactly. -/
def fillGo (c : RConfig) : Nat → RunnerSt → RunnerSt
  | 0, st => st
  | fuel+1, st =>
    if st.inflight.length < c.maxWorkers then
      if c.maxPages ≤ st.pages_crawled + st.inflight.length then st
      else
        match st.frontier.next with
        | some ((url, depth), f') =>
          fillGo c fuel { st with frontier := f',
                                  inflight := st.inflight ++ [(url, depth)] }
        | none => st
    else st

/-- Fill worker slots from the frontier (top of each loop iteration). -/
def fill (c : RConfig) (st : RunnerSt) : RunnerSt := fillGo c c.maxWorkers st

/-- The `join_next` arm: remove the finished task, apply its outcome
(success pushes the page into the pending batch, feeds its links back at
`depth + 1` when `extract_links`, and bumps `pages_crawled`; robots blocks
count nothing; errors and panics bump `pages_errored`), then flush a
non-final batch when the threshold or interval condition holds and the
pending batch is non-empty. `none` when `idx` is out of range. -/
def completeStep (c : RConfig) (st : RunnerSt) (idx : Nat)
    (out : Outcome) (timer : Bool) : Option RunnerSt :=
  match st.inflight[idx]? with
  | none => none
  | some (url, depth) =>
    let st1 := { st with inflight := st.inflight.eraseIdx idx }
    let st2 :=
      match out with
      | Outcome.ok links =>
        { st1 with
            frontier := if c.extractLinks then
                st1.frontier.addDiscovered links (depth + 1)
              else st1.frontier,
            batch_pages := st1.batch_pages ++ [url],
            pages_crawled := st1.pages_crawled + 1 }
      | Outcome.blocked => st1
      | Outcome.errored => { st1 with pages_errored := st1.pages_errored + 1 }
      | Outcome.panicked => { st1 with pages_errored := st1.pages_errored + 1 }
    let should := decide (c.batchThreshold ≤ st2.batch_pages.length) || timer
    some (if should && !st2.batch_pages.isEmpty then
      { st2 with
          sent := st2.sent ++ [⟨st2.batch_index, false, st2.batch_pages⟩],
          batch_pages := [],
          batch_index := st2.batch_index + 1 }
    else st2)

/-- The runner's `loop`: fill slots, exit when no task is in flight,
otherwise consume the next event — `biased` cancellation aborts every task
and breaks, a completion runs `completeStep` and loops. Every recursive pass
consumes one event, so `evs.length + 1` fuel reproduces the loop; `none`
means the event schedule was invalid (index out of range, or the events ran
out before the loop ended). -/
def runLoop (c : RConfig) : Nat → RunnerSt → List REvent → Option RunnerSt
  | 0, _, _ => none
  | fuel+1, st, evs =>
    let st' := fill c st
    if st'.inflight.isEmpty then some st'
    else
      match evs with
      | [] => none
      | REvent.cancel :: _ =>
        some { st' with inflight := [], cancelled := true }
      | REvent.complete idx out timer :: rest =>
        match completeStep c st' idx out timer with
        | none => none
        | some st2 => runLoop c fuel st2 rest

/-- `run_crawl_job` from frontier construction to the final flush: run the
loop on the seeded frontier, then unconditionally append the final batch
(`is_final = true`, carrying the still-pending pages) to the sent sequence.
Returns the final state and every batch handed to `send_callback`, in
order. -/
def run_crawl_job (c : RConfig) (seeds : List String) (maxDepth : Nat)
    (evs : List REvent) : Option (RunnerSt × List BatchM) :=
  match runLoop c (evs.length + 1)
      ⟨Frontier.new seeds maxDepth, [], 0, 0, [], 0, [], false⟩ evs with
  | none => none
  | some st =>
    let bs := st.sent ++ [⟨st.batch_index, true, st.batch_pages⟩]
    some ({ st with sent := bs }, bs)

/-! ### SHA-256 and HMAC-SHA256 (`sha2` / `hmac` crates, RFC 6234 / RFC 2104) -/

/-- Truncate to a 32-bit word. -/
def u32 (n : Nat) : Nat := n % 4294967296

/-- 32-bit right rotation (the input must be a 32-bit word). -/
def rotr (k n : Nat) : Nat := u32 ((n >>> k) ||| (n <<< (32 - k)))

def bigSigma0 (x : Nat) : Nat := rotr 2 x ^^^ rotr 13 x ^^^ rotr 22 x

def bigSigma1 (x : Nat) : Nat := rotr 6 x ^^^ rotr 11 x ^^^ rotr 25 x

def smallSigma0 (x : Nat) : Nat := rotr 7 x ^^^ rotr 18 x ^^^ (x >>> 3)

def smallSigma1 (x : Nat) : Nat := rotr 17 x ^^^ rotr 19 x ^^^ (x >>> 10)

def chFn (x y z : Nat) : Nat := (x &&& y) ^^^ ((x ^^^ 4294967295) &&& z)

def majFn (x y z : Nat) : Nat := (x &&& y) ^^^ (x &&& z) ^^^ (y &&& z)

/-- The 64 SHA-256 round constants. -/
def sha256K : List Nat := [
  1116352408, 1899447441, 3049323471, 3921009573, 961987163, 1508970993,
  2453635748, 2870763221, 3624381080, 310598401, 607225278, 1426881987,
  1925078388, 2162078206, 2614888103, 3248222580, 3835390401, 4022224774,
  264347078, 604807628, 770255983, 1249150122, 1555081692, 1996064986,
  2554220882, 2821834349, 2952996808, 3210313671, 3336571891, 3584528711,
  113926993, 338241895, 666307205, 773529912, 1294757372, 1396182291,
  1695183700, 1986661051, 2177026350, 2456956037, 2730485921, 2820302411,
  3259730800, 3345764771, 3516065817, 3600352804, 4094571909, 275423344,
  430227734, 506948616, 659060556, 883997877, 958139571, 1322822218,
  1537002063, 1747873779, 1955562222, 2024104815, 2227730452, 2361852424,
  2428436474, 2756734187, 3204031479, 3329325298]

/-- The SHA-256 initial hash value. -/
def sha256H0 : List Nat := [
  1779033703, 3144134277, 1013904242, 2773480762, 1359893119, 2600822924,
  528734635, 1541459225]

/-- Extend the 16-word message block to 64 words; `ws` holds the words
produced so far, most recent first. -/
def schedExt : Nat → List Nat → List Nat
  | 0, ws => ws
  | n+1, ws =>
    let w := u32 (smallSigma1 (ws.getD 1 0) + ws.getD 6 0 +
      smallSigma0 (ws.getD 14 0) + ws.getD 15 0)
    schedExt n (w :: ws)

/-- One SHA-256 round: the state is `[a,b,c,d,e,f,g,h]`, `kw` the
already-added `K[t] + W[t]`. -/
def compressStep (s : List Nat) (kw : Nat) : List Nat :=
  match s with
  | [a, b, c, d, e, f, g, h] =>
    let t1 := u32 (h + bigSigma1 e + chFn e f g + kw)
    let t2 := u32 (bigSigma0 a + majFn a b c)
    [u32 (t1 + t2), a, b, c, u32 (d + t1), e, f, g]
  | _ => s

/-- Compress one 16-word block into the running hash `hh`. -/
def compressBlock (hh block : List Nat) : List Nat :=
  let ws := (schedExt 48 block.reverse).reverse
  let s' := (sha256K.zipWith (fun k w => u32 (k + w)) ws).foldl compressStep hh
  hh.zipWith (fun x y => u32 (x + y)) s'

/-- Fold the compression over the 16-word blocks of `ws`; `fuel` bounds the
number of blocks (`ws.length` suffices). -/
def sha256Blocks : Nat → List Nat → List Nat → List Nat
  | 0, hh, _ => hh
  | fuel+1, hh, ws =>
    match ws with
    | [] => hh
    | _ => sha256Blocks fuel (compressBlock hh (ws.take 16)) (ws.drop 16)

/-- Big-endian bytes of `v`, `n` bytes wide. -/
def toBytesBE : Nat → Nat → List Nat
  | 0, _ => []
  | n+1, v => toBytesBE n (v >>> 8) ++ [v &&& 255]

/-- Big-endian 32-bit words from bytes (length a multiple of 4). -/
def bytesToWords : List Nat → List Nat
  | b0 :: b1 :: b2 :: b3 :: rest =>
    (((b0 * 256 + b1) * 256 + b2) * 256 + b3) :: bytesToWords rest
  | _ => []

/-- SHA-256 of a byte list (each element a byte value), as 32 bytes. -/
def sha256 (msg : List Nat) : List Nat :=
  let len := msg.length
  let zeros := (64 + 55 - len % 64) % 64
  let padded := msg ++ 128 :: List.replicate zeros 0 ++ toBytesBE 8 (8 * len)
  let ws := bytesToWords padded
  let hh := sha256Blocks ws.length sha256H0 ws
  hh.foldr (fun w acc => toBytesBE 4 w ++ acc) []

/-- HMAC-SHA256 (RFC 2104): block size 64, inner pad `0x36`, outer pad
`0x5c`; a key longer than one block is first hashed. -/
def hmacSha256 (key msg : List Nat) : List Nat :=
  let k0 := if 64 < key.length then sha256 key else key
  let kpad := k0 ++ List.replicate (64 - k0.length) 0
  let ipad := kpad.map (fun b => b ^^^ 54)
  let opad := kpad.map (fun b => b ^^^ 92)
  sha256 (opad ++ sha256 (ipad ++ msg))

/-- The lowercase hex digits. -/
def hexDigit (n : Nat) : Char :=
  match n with
  | 0 => '0' | 1 => '1' | 2 => '2' | 3 => '3' | 4 => '4' | 5 => '5'
  | 6 => '6' | 7 => '7' | 8 => '8' | 9 => '9' | 10 => 'a' | 11 => 'b'
  | 12 => 'c' | 13 => 'd' | 14 => 'e' | _ => 'f'

/-- `hex::encode`: lowercase hex of a byte list. -/
def hexEncode (bs : List Nat) : List Char :=
  bs.foldr (fun b acc => hexDigit (b / 16) :: hexDigit (b % 16) :: acc) []

/-- Lowercase hex of a byte list, as a string. -/
def hexStr (bs : List Nat) : String := String.mk (hexEncode bs)

/-- UTF-8 encoding of one character. -/
def utf8EncodeChar (c : Char) : List Nat :=
  let n := c.toNat
  if n < 128 then [n]
  else if n < 2048 then [192 ||| (n >>> 6), 128 ||| (n &&& 63)]
  else if n < 65536 then
    [224 ||| (n >>> 12), 128 ||| ((n >>> 6) &&& 63), 128 ||| (n &&& 63)]
  else
    [240 ||| (n >>> 18), 128 ||| ((n >>> 12) &&& 63),
     128 ||| ((n >>> 6) &&& 63), 128 ||| (n &&& 63)]

/-- `str::as_bytes`: the UTF-8 bytes of a string. -/
def strBytes (s : String) : List Nat :=
  s.data.foldr (fun c acc => utf8EncodeChar c ++ acc) []

/-- `hmac::Mac` streaming state: the key and the input accumulated by
`update` calls (HMAC processes the concatenation of all updates). -/
structure MacState where
  key : List Nat
  buf : List Nat

/-- `HmacSha256::new_from_slice` (any key size is accepted). -/
def macNew (key : List Nat) : MacState := ⟨key, []⟩

/-- `Mac::update`. -/
def macUpdate (m : MacState) (data : List Nat) : MacState :=
  { m with buf := m.buf ++ data }

/-- `Mac::finalize().into_bytes()`. -/
def macFinalize (m : MacState) : List Nat := hmacSha256 m.key m.buf

/-- The outbound callback request fields `send_callback` sets. -/
structure SentRequest where
  x_timestamp : String
  x_signature : String
  body : String
  deriving Repr, DecidableEq

/-- `jobs/mod.rs::send_callback`, given the serialized batch body and the
clock-read Unix-seconds timestamp string: `mac.update(timestamp);
mac.update(body); signature = format!("hmac-sha256=\x7b\x7d",
hex::encode(mac.finalize()))`, sent with `X-Timestamp = timestamp` and
`X-Signature = signature`. -/
def send_callback (secret timestamp body : String) : SentRequest :=
  let mac := macNew (strBytes secret)
  let mac := macUpdate mac (strBytes timestamp)
  let mac := macUpdate mac (strBytes body)
  ⟨timestamp, "hmac-sha256=" ++ hexStr (macFinalize mac), body⟩

/-- The responses `server/auth.rs::verify_hmac` can produce: a 401, a 400,
or passing the request through to `next.run`. -/
inductive VerifyResult where
  | unauthorized (msg : String)
  | badRequest (msg : String)
  | pass
  deriving Repr, DecidableEq

/-- `str::parse::<u64>`: an optional leading `+`, then one or more ASCII
digits, value below `2^64`. -/
def parseDigitsGo : List Char → Nat → Option Nat
  | [], acc => some acc
  | c :: cs, acc =>
    if 48 ≤ c.toNat ∧ c.toNat ≤ 57 then
      parseDigitsGo cs (acc * 10 + (c.toNat - 48))
    else none

def parseU64 (s : String) : Option Nat :=
  let cs := match s.data with
    | '+' :: rest => rest
    | cs => cs
  match cs with
  | [] => none
  | _ =>
    match parseDigitsGo cs 0 with
    | some v => if v < 18446744073709551616 then some v else none
    | none => none

/-- `str::strip_prefix(pre).unwrap_or(self)`. -/
def stripPrefixOrSelf (pre s : List Char) : List Char :=
  if startsWithChars s pre then s.drop pre.length else s

def MAX_TIMESTAMP_DRIFT_SECS : Nat := 300

/-- `server/auth.rs::verify_hmac`, over the request pieces it inspects: the
two headers (absent or their string value), the server clock `now`
(Unix seconds), and the body bytes. `to_bytes` with the `10 * 1024 * 1024`
limit fails exactly when the body is larger. -/
def verify_hmac (secret : String) (now : Nat)
    (x_signature x_timestamp : Option String) (body : List Nat) :
    VerifyResult :=
  match x_signature with
  | none => VerifyResult.unauthorized "Missing X-Signature header"
  | some signature =>
    match x_timestamp with
    | none => VerifyResult.unauthorized "Missing X-Timestamp header"
    | some timestamp_str =>
      match parseU64 timestamp_str with
      | none => VerifyResult.unauthorized "Invalid timestamp format"
      | some timestamp =>
        let drift := if timestamp ≤ now then now - timestamp
          else timestamp - now
        if MAX_TIMESTAMP_DRIFT_SECS < drift then
          VerifyResult.unauthorized "Timestamp too far from current time"
        else if 10 * 1024 * 1024 < body.length then
          VerifyResult.badRequest "Failed to read request body"
        else
          let expected := hexEncode (hmacSha256 (strBytes secret)
            (strBytes timestamp_str ++ body))
          let provided := stripPrefixOrSelf "hmac-sha256=".data signature.data
          if expected ≠ provided then
            VerifyResult.unauthorized "HMAC signature verification failed"
          else VerifyResult.pass

/-! ### Character-level lemmas -/

theorem asciiLower_eq_self_or (c : Char) :
    asciiLower c = c ∨
      asciiLower c ∈ ['a','b','c','d','e','f','g','h','i','j','k','l','m',
                      'n','o','p','q','r','s','t','u','v','w','x','y','z'] := by
  unfold asciiLower
  split <;> first | (left; rfl) | (right; decide)

theorem asciiLower_of_lower {d : Char}
    (h : d ∈ ['a','b','c','d','e','f','g','h','i','j','k','l','m',
              'n','o','p','q','r','s','t','u','v','w','x','y','z']) :
    asciiLower d = d := by
  fin_cases h <;> rfl

theorem asciiLower_idem (c : Char) : asciiLower (asciiLower c) = asciiLower c := by
  rcases asciiLower_eq_self_or c with h | h
  · rw [h]; exact h
  · exact asciiLower_of_lower h

theorem isAlphaAscii_asciiLower (c : Char) :
    isAlphaAscii (asciiLower c) = isAlphaAscii c := by
  unfold asciiLower
  split <;> rfl

theorem isSchemeTail_asciiLower (c : Char) :
    isSchemeTail (asciiLower c) = isSchemeTail c := by
  unfold asciiLower
  split <;> rfl

theorem asciiLower_eq_hash {c : Char} (h : asciiLower c = '#') : c = '#' := by
  revert h
  unfold asciiLower
  split <;> intro h <;> first | exact h | exact absurd h (by decide)

theorem asciiLower_eq_qmark {c : Char} (h : asciiLower c = '?') : c = '?' := by
  revert h
  unfold asciiLower
  split <;> intro h <;> first | exact h | exact absurd h (by decide)

theorem asciiLower_eq_slash {c : Char} (h : asciiLower c = '/') : c = '/' := by
  revert h
  unfold asciiLower
  split <;> intro h <;> first | exact h | exact absurd h (by decide)

/-! ### `breakAt` / `splitOpt` lemmas -/

theorem breakAt_eq_none {sep : Char} {l : List Char} (h : sep ∉ l) :
    breakAt sep l = none := by
  induction l with
  | nil => rfl
  | cons x xs ih =>
    simp only [List.mem_cons, not_or] at h
    rw [breakAt, if_neg (fun hx : x = sep => h.1 hx.symm), ih h.2]

theorem not_mem_of_breakAt_eq_none {sep : Char} {l : List Char}
    (h : breakAt sep l = none) : sep ∉ l := by
  induction l with
  | nil => simp
  | cons x xs ih =>
    rw [breakAt] at h
    by_cases hx : x = sep
    · rw [if_pos hx] at h; simp at h
    · rw [if_neg hx] at h
      cases hab : breakAt sep xs with
      | none =>
        simp only [List.mem_cons, not_or]
        exact ⟨fun he => hx he.symm, ih hab⟩
      | some p => rw [hab] at h; simp at h

theorem breakAt_append {sep : Char} {l₁ l₂ : List Char} (h : sep ∉ l₁) :
    breakAt sep (l₁ ++ sep :: l₂) = some (l₁, l₂) := by
  induction l₁ with
  | nil => simp [breakAt]
  | cons x xs ih =>
    simp only [List.mem_cons, not_or] at h
    rw [List.cons_append, breakAt, if_neg (fun hx : x = sep => h.1 hx.symm), ih h.2]

theorem breakAt_eq_some {sep : Char} {l a b : List Char}
    (h : breakAt sep l = some (a, b)) : l = a ++ sep :: b ∧ sep ∉ a := by
  induction l generalizing a with
  | nil => simp [breakAt] at h
  | cons x xs ih =>
    rw [breakAt] at h
    by_cases hx : x = sep
    · rw [if_pos hx] at h
      simp only [Option.some.injEq, Prod.mk.injEq] at h
      obtain ⟨rfl, rfl⟩ := h
      subst hx
      exact ⟨rfl, by simp⟩
    · rw [if_neg hx] at h
      cases hab : breakAt sep xs with
      | none => rw [hab] at h; simp at h
      | some p =>
        obtain ⟨a', b'⟩ := p
        rw [hab] at h
        simp only [Option.some.injEq, Prod.mk.injEq] at h
        obtain ⟨ha, hb⟩ := h
        subst ha
        subst hb
        obtain ⟨h1, h2⟩ := ih hab
        refine ⟨by rw [List.cons_append, ← h1], ?_⟩
        simp only [List.mem_cons, not_or]
        exact ⟨fun he => hx he.symm, h2⟩

theorem splitOpt_spec {sep : Char} {l a : List Char} {ob : Option (List Char)}
    (h : splitOpt sep l = (a, ob)) :
    sep ∉ a ∧ ((∃ b, ob = some b ∧ l = a ++ sep :: b) ∨ (ob = none ∧ l = a)) := by
  unfold splitOpt at h
  cases hb : breakAt sep l with
  | none =>
    rw [hb] at h
    cases h
    exact ⟨not_mem_of_breakAt_eq_none hb, Or.inr ⟨rfl, rfl⟩⟩
  | some p =>
    obtain ⟨a', b'⟩ := p
    rw [hb] at h
    cases h
    obtain ⟨h1, h2⟩ := breakAt_eq_some hb
    exact ⟨h2, Or.inl ⟨b', rfl, h1⟩⟩

theorem splitOpt_append {sep : Char} {l₁ l₂ : List Char} (h : sep ∉ l₁) :
    splitOpt sep (l₁ ++ sep :: l₂) = (l₁, some l₂) := by
  unfold splitOpt
  rw [breakAt_append h]

theorem splitOpt_of_not_mem {sep : Char} {l : List Char} (h : sep ∉ l) :
    splitOpt sep l = (l, none) := by
  unfold splitOpt
  rw [breakAt_eq_none h]

theorem schemeOk_map_asciiLower {s : List Char} (h : schemeOk s = true) :
    schemeOk (s.map asciiLower) = true := by
  cases s with
  | nil => simp [schemeOk] at h
  | cons c cs =>
    simp only [List.map_cons, schemeOk, Bool.and_eq_true] at h ⊢
    refine ⟨by rw [isAlphaAscii_asciiLower]; exact h.1, ?_⟩
    simp only [List.all_map, List.all_eq_true, Function.comp] at h ⊢
    intro x hx
    rw [isSchemeTail_asciiLower]
    exact h.2 x hx

theorem map_asciiLower_idem (s : List Char) :
    (s.map asciiLower).map asciiLower = s.map asciiLower := by
  rw [List.map_map]
  exact List.map_congr_left fun c _ => asciiLower_idem c

theorem not_mem_map_asciiLower_hash {s : List Char} (h : '#' ∉ s) :
    '#' ∉ s.map asciiLower := by
  intro hm
  obtain ⟨c, hc, he⟩ := List.mem_map.mp hm
  exact h (asciiLower_eq_hash he ▸ hc)

theorem not_mem_map_asciiLower_qmark {s : List Char} (h : '?' ∉ s) :
    '?' ∉ s.map asciiLower := by
  intro hm
  obtain ⟨c, hc, he⟩ := List.mem_map.mp hm
  exact h (asciiLower_eq_qmark he ▸ hc)

theorem not_mem_map_asciiLower_slash {s : List Char} (h : '/' ∉ s) :
    '/' ∉ s.map asciiLower := by
  intro hm
  obtain ⟨c, hc, he⟩ := List.mem_map.mp hm
  exact h (asciiLower_eq_slash he ▸ hc)

theorem colon_not_mem_of_schemeOk {s : List Char} (h : schemeOk s = true) :
    ':' ∉ s := by
  cases s with
  | nil => simp
  | cons c cs =>
    simp only [schemeOk, Bool.and_eq_true] at h
    simp only [List.mem_cons, not_or]
    constructor
    · rintro rfl
      simp [isAlphaAscii] at h
    · intro hm
      have := List.all_eq_true.mp h.2 _ hm
      simp [isSchemeTail, isAlphaAscii, isDigitAscii] at this

/-- Every URL produced by `parseAuthority` is canonical. -/
theorem parseAuthority_pcanon {sch rest2 : List Char} {u : UrlM}
    (hsch : schemeOk sch = true) (h : parseAuthority sch rest2 = some u) :
    PCanon u := by
  unfold parseAuthority at h
  cases hpf : splitOpt '#' rest2 with
  | mk beforeFrag frag =>
    rw [hpf] at h
    dsimp only at h
    cases hpq : splitOpt '?' beforeFrag with
    | mk beforeQ query =>
      rw [hpq] at h
      dsimp only at h
      obtain ⟨hf1, _⟩ := splitOpt_spec hpf
      obtain ⟨hq1, _⟩ := splitOpt_spec hpq
      -- characters excluded from the pieces
      have hbq_no_hash : '#' ∉ beforeQ := by
        rcases (splitOpt_spec hpq).2 with ⟨b, _, hb⟩ | ⟨_, hb⟩ <;> subst hb <;>
          intro hm
        · exact hf1 (List.mem_append.mpr (Or.inl hm))
        · exact hf1 hm
      cases hsplit : breakAt '/' beforeQ with
      | some p =>
        obtain ⟨hhost, hpath⟩ := p
        rw [hsplit] at h
        simp only [List.isEmpty_iff] at h
        split at h
        · cases h
        · next hne =>
          simp only [Option.some.injEq] at h
          subst h
          obtain ⟨hdec, hnomem⟩ := breakAt_eq_some hsplit
          have hh_no_hash : '#' ∉ hhost := fun hm =>
            hbq_no_hash (hdec ▸ List.mem_append.mpr (Or.inl hm))
          have hh_no_q : '?' ∉ hhost := fun hm =>
            hq1 (hdec ▸ List.mem_append.mpr (Or.inl hm))
          have hp_no_hash : '#' ∉ ('/' : Char) :: hpath := by
            simp only [List.mem_cons, not_or]
            refine ⟨by decide, fun hm => hbq_no_hash ?_⟩
            rw [hdec]
            exact List.mem_append.mpr (Or.inr (List.mem_cons.mpr (Or.inr hm)))
          have hp_no_q : '?' ∉ ('/' : Char) :: hpath := by
            simp only [List.mem_cons, not_or]
            refine ⟨by decide, fun hm => hq1 ?_⟩
            rw [hdec]
            exact List.mem_append.mpr (Or.inr (List.mem_cons.mpr (Or.inr hm)))
          refine ⟨schemeOk_map_asciiLower hsch, map_asciiLower_idem _, ?_,
            map_asciiLower_idem _, not_mem_map_asciiLower_hash hh_no_hash,
            not_mem_map_asciiLower_qmark hh_no_q,
            not_mem_map_asciiLower_slash hnomem, ⟨hpath, rfl⟩,
            hp_no_hash, hp_no_q, ?_⟩
          · simpa using hne
          · rintro q rfl
            rcases (splitOpt_spec hpq).2 with ⟨b, hb, hdecq⟩ | ⟨hb, _⟩
            · cases hb
              intro hm
              exact hf1 (hdecq ▸ List.mem_append.mpr
                (Or.inr (List.mem_cons.mpr (Or.inr hm))))
            · cases hb
      | none =>
        rw [hsplit] at h
        simp only [List.isEmpty_iff] at h
        split at h
        · cases h
        · next hne =>
          simp only [Option.some.injEq] at h
          subst h
          have hnomem : '/' ∉ beforeQ := not_mem_of_breakAt_eq_none hsplit
          refine ⟨schemeOk_map_asciiLower hsch, map_asciiLower_idem _, ?_,
            map_asciiLower_idem _, not_mem_map_asciiLower_hash hbq_no_hash,
            not_mem_map_asciiLower_qmark hq1,
            not_mem_map_asciiLower_slash hnomem, ⟨[], rfl⟩,
            by simp, by simp, ?_⟩
          · simpa using hne
          · rintro q rfl
            rcases (splitOpt_spec hpq).2 with ⟨b, hb, hdecq⟩ | ⟨hb, _⟩
            · cases hb
              intro hm
              exact hf1 (hdecq ▸ List.mem_append.mpr
                (Or.inr (List.mem_cons.mpr (Or.inr hm))))
            · cases hb

/-- `parseChars` on a string of the canonical shape reduces to
`parseAuthority`. -/
theorem parseChars_eq_parseAuthority {sch rest2 : List Char}
    (h : schemeOk sch = true) (hcol : ':' ∉ sch) :
    parseChars (sch ++ ':' :: '/' :: '/' :: rest2) = parseAuthority sch rest2 := by
  unfold parseChars
  rw [breakAt_append hcol]
  dsimp only
  rw [if_pos h]
  rfl

/-- Serializing a canonical URL and parsing it back is the identity. -/
theorem parse_urlToChars {u : UrlM} (hc : PCanon u) :
    parseChars (urlToChars u) = some u := by
  obtain ⟨h1, h2, h3, h4, h5, h6, h7, ⟨p, hp⟩, h8, h9, h10⟩ := hc
  obtain ⟨sc, ho, pa, qu, fr⟩ := u
  simp only at h1 h2 h3 h4 h5 h6 h7 hp h8 h9 h10 ⊢
  subst hp
  unfold urlToChars
  dsimp only
  rw [parseChars_eq_parseAuthority h1 (colon_not_mem_of_schemeOk h1)]
  unfold parseAuthority
  have hhp : '#' ∉ ho ++ '/' :: p := fun hm =>
    (List.mem_append.mp hm).elim (fun hm => h5 hm) (fun hm => h8 hm)
  have hqp : '?' ∉ ho ++ '/' :: p := fun hm =>
    (List.mem_append.mp hm).elim (fun hm => h6 hm) (fun hm => h9 hm)
  have hne : ¬(ho.isEmpty = true) := by simp [h3]
  cases fr with
  | none =>
    cases qu with
    | none =>
      simp only [List.append_nil]
      rw [splitOpt_of_not_mem hhp]
      dsimp only
      rw [splitOpt_of_not_mem hqp]
      dsimp only
      rw [breakAt_append h7]
      dsimp only
      rw [if_neg hne, h2, h4]
    | some q =>
      simp only [List.append_nil]
      have hq : '#' ∉ (ho ++ '/' :: p) ++ '?' :: q := by
        intro hm
        rcases List.mem_append.mp hm with hm | hm
        · exact hhp hm
        · rcases List.mem_cons.mp hm with hc | hc
          · exact absurd hc (by decide)
          · exact h10 q rfl hc
      rw [splitOpt_of_not_mem hq]
      dsimp only
      rw [splitOpt_append hqp]
      dsimp only
      rw [breakAt_append h7]
      dsimp only
      rw [if_neg hne, h2, h4]
  | some f =>
    cases qu with
    | none =>
      simp only [List.append_nil]
      rw [splitOpt_append hhp]
      dsimp only
      rw [splitOpt_of_not_mem hqp]
      dsimp only
      rw [breakAt_append h7]
      dsimp only
      rw [if_neg hne, h2, h4]
    | some q =>
      have hq : '#' ∉ (ho ++ '/' :: p) ++ '?' :: q := by
        intro hm
        rcases List.mem_append.mp hm with hm | hm
        · exact hhp hm
        · rcases List.mem_cons.mp hm with hc | hc
          · exact absurd hc (by decide)
          · exact h10 q rfl hc
      rw [splitOpt_append hq]
      dsimp only
      rw [splitOpt_append hqp]
      dsimp only
      rw [breakAt_append h7]
      dsimp only
      rw [if_neg hne, h2, h4]

/-- Every URL produced by `parseChars` is canonical. -/
theorem parseChars_pcanon {l : List Char} {u : UrlM}
    (h : parseChars l = some u) : PCanon u := by
  unfold parseChars at h
  cases hbrk : breakAt ':' l with
  | none => rw [hbrk] at h; cases h
  | some p =>
    obtain ⟨sch, rest⟩ := p
    rw [hbrk] at h
    dsimp only at h
    split at h
    · next hsch =>
      split at h
      · exact parseAuthority_pcanon hsch h
      · cases h
    · cases h

/-! ### Normalization lemmas (claim C9) -/

theorem dropFragAndSlash_pcanon {u : UrlM} (hc : PCanon u) :
    PCanon (dropFragAndSlash u) := by
  obtain ⟨h1, h2, h3, h4, h5, h6, h7, ⟨p, hp⟩, h8, h9, h10⟩ := hc
  unfold dropFragAndSlash
  dsimp only
  split
  · next hcond =>
    have hlen : 1 < u.path.length := hcond.1
    have hpne : p ≠ [] := by
      intro hnil
      rw [hp, hnil] at hlen
      simp at hlen
    obtain ⟨y, ys, rfl⟩ := List.exists_cons_of_ne_nil hpne
    refine ⟨h1, h2, h3, h4, h5, h6, h7, ⟨(y :: ys).dropLast, ?_⟩, ?_, ?_, ?_⟩
    · simp only [hp]
      rfl
    · intro hm
      exact h8 ((List.dropLast_sublist _).subset hm)
    · intro hm
      exact h9 ((List.dropLast_sublist _).subset hm)
    · intro q hq
      exact h10 q hq
  · exact ⟨h1, h2, h3, h4, h5, h6, h7, ⟨p, hp⟩, h8, h9, h10⟩

theorem dropFragAndSlash_fragment (u : UrlM) :
    (dropFragAndSlash u).fragment = none := by
  unfold dropFragAndSlash
  dsimp only
  split <;> rfl

theorem dropFragAndSlash_id {u : UrlM} (hf : u.fragment = none)
    (h : ¬(1 < u.path.length ∧ u.path.getLast? = some '/')) :
    dropFragAndSlash u = u := by
  obtain ⟨sc, ho, pa, qu, fr⟩ := u
  simp only at hf h
  subst hf
  unfold dropFragAndSlash
  dsimp only
  rw [if_neg h]

/-- After one pass of fragment-and-slash dropping, the trailing-slash strip
condition no longer holds, provided the original path did not end in a
double slash. -/
theorem dropFragAndSlash_no_strip {u : UrlM}
    (hp : ¬(['/', '/'] <:+ u.path)) :
    ¬(1 < (dropFragAndSlash u).path.length ∧
      (dropFragAndSlash u).path.getLast? = some '/') := by
  unfold dropFragAndSlash
  dsimp only
  split
  · next hcond =>
    dsimp only
    rintro ⟨hlen2, hlast2⟩
    -- path = dropLast path ++ [last]; both last chars are '/'
    apply hp
    have hne : u.path ≠ [] := by
      intro hnil
      rw [hnil] at hcond
      simp at hcond
    have hdne : u.path.dropLast ≠ [] := by
      intro hnil
      rw [hnil] at hlen2
      simp at hlen2
    have e1 : u.path.dropLast ++ [('/' : Char)] = u.path := by
      have := List.dropLast_append_getLast hne
      rwa [List.getLast_eq_iff_getLast?_eq_some hne |>.mpr hcond.2] at this
    have e2 : u.path.dropLast.dropLast ++ [('/' : Char)] = u.path.dropLast := by
      have := List.dropLast_append_getLast hdne
      rwa [List.getLast_eq_iff_getLast?_eq_some hdne |>.mpr hlast2] at this
    refine ⟨u.path.dropLast.dropLast, ?_⟩
    calc u.path.dropLast.dropLast ++ ['/', '/']
        = (u.path.dropLast.dropLast ++ [('/' : Char)]) ++ [('/' : Char)] := by
          simp
      _ = u.path.dropLast ++ [('/' : Char)] := by rw [e2]
      _ = u.path := e1
  · next hcond =>
    dsimp only
    exact hcond

/-- One-pass characterization: `normChars` of a parsed input is the
serialization of `dropFragAndSlash`. -/
theorem normChars_eq {l : List Char} {u : UrlM} (hu : parseChars l = some u) :
    normChars l = some (urlToChars (dropFragAndSlash u)) := by
  unfold normChars
  rw [hu]
  rfl

/-- Normalization is idempotent on every input whose parsed path does not end
in a double slash. -/
theorem normChars_idem {l m : List Char} {u : UrlM}
    (hu : parseChars l = some u) (hp : ¬(['/', '/'] <:+ u.path))
    (hm : normChars l = some m) : normChars m = some m := by
  have hmm := normChars_eq hu
  rw [hm] at hmm
  obtain rfl : m = urlToChars (dropFragAndSlash u) := by
    simpa using hmm
  have hc2 : PCanon (dropFragAndSlash u) :=
    dropFragAndSlash_pcanon (parseChars_pcanon hu)
  have hparse2 := parse_urlToChars hc2
  rw [normChars_eq hparse2,
    dropFragAndSlash_id (dropFragAndSlash_fragment u) (dropFragAndSlash_no_strip hp)]

/-- C9 (amended): URL normalization is idempotent for every input whose
parsed path does not end in a double slash — one application drops exactly one
trailing slash, so a path ending in `//` needs two passes (see the
counterexample). On the claim's concrete inputs normalization drops the
fragment, lowercases scheme and host, and drops the trailing slash:
`normalize("https://E.com/p/#x") = normalize("https://e.com/p") =
"https://e.com/p"`. -/
theorem c9_normalize_idempotent :
    (∀ (s t : String) (u : UrlM), urlParse s = some u →
        ¬(['/', '/'] <:+ u.path) → normalize_url s = some t →
        normalize_url t = some t) ∧
    normalize_url "https://E.com/p/#x" = some "https://e.com/p" ∧
    normalize_url "https://e.com/p" = some "https://e.com/p" := by
  refine ⟨?_, by decide, by decide⟩
  intro s t u hu hp ht
  unfold normalize_url at ht ⊢
  cases hnc : normChars s.data with
  | none => rw [hnc] at ht; cases ht
  | some m =>
    rw [hnc] at ht
    simp only [Option.map_some', Option.some.injEq] at ht
    subst ht
    rw [show (String.mk m).data = m from rfl, normChars_idem hu hp hnc]
    rfl

/-- C9 counterexample: `normalize_url` is not idempotent on the code as
written — for the input `"https://e.com/p//"` one application yields
`"https://e.com/p/"` (only one trailing slash is dropped), and a second
application yields the different string `"https://e.com/p"`. -/
theorem c9_counterexample :
    normalize_url "https://e.com/p//" = some "https://e.com/p/" ∧
    normalize_url "https://e.com/p/" = some "https://e.com/p" ∧
    ("https://e.com/p/" : String) ≠ "https://e.com/p" := by
  refine ⟨by decide, by decide, by decide⟩

/-- Witness for `c9_normalize_idempotent` at a concrete input. -/
theorem c9_witness : normalize_url "https://e.com/x" = some "https://e.com/x" :=
  c9_normalize_idempotent.1 "https://e.com/x/" "https://e.com/x"
    ⟨['h','t','t','p','s'], ['e','.','c','o','m'], ['/','x','/'], none, none⟩
    (by decide) (by decide) (by decide)

/-! ### Heap vector basics -/

theorem entryLe_iff {a b : FrontierEntry} : entryLe a b = true ↔ b.depth ≤ a.depth := by
  unfold entryLe entryCmp
  rcases Nat.lt_trichotomy b.depth a.depth with h | h | h <;>
    simp [Nat.compare_eq_gt, Nat.compare_eq_lt, Nat.compare_eq_eq, h, Nat.le_of_lt,
      Nat.not_le, Nat.le_of_eq]

theorem length_swapE (l : List FrontierEntry) (i j : Nat) :
    (swapE l i j).length = l.length := by
  simp [swapE]

theorem getE_set_self {l : List FrontierEntry} {i : Nat} (h : i < l.length) (x : FrontierEntry) :
    getE (l.set i x) i = x := by
  unfold getE
  rw [List.getD_eq_getElem?_getD, List.getElem?_set_self', List.getElem?_eq_getElem h]
  rfl

theorem getE_set_ne {l : List FrontierEntry} {i k : Nat} (h : k ≠ i) (x : FrontierEntry) :
    getE (l.set i x) k = getE l k := by
  unfold getE
  rw [List.getD_eq_getElem?_getD, List.getD_eq_getElem?_getD,
    List.getElem?_set_ne (fun he => h he.symm)]

theorem getE_swapE_fst {l : List FrontierEntry} {i j : Nat}
    (hi : i < l.length) (hj : j < l.length) : getE (swapE l i j) i = getE l j := by
  unfold swapE
  by_cases hij : i = j
  · subst hij
    rw [getE_set_self (by simpa using hi)]
  · rw [getE_set_ne hij, getE_set_self hi]

theorem getE_swapE_snd {l : List FrontierEntry} {i j : Nat}
    (hj : j < l.length) : getE (swapE l i j) j = getE l i := by
  unfold swapE
  rw [getE_set_self (by simpa using hj)]

theorem getE_swapE_other {l : List FrontierEntry} {i j k : Nat}
    (h1 : k ≠ i) (h2 : k ≠ j) : getE (swapE l i j) k = getE l k := by
  unfold swapE
  rw [getE_set_ne h2, getE_set_ne h1]

theorem ite_one_zero_comm (u v : FrontierEntry) :
    (if u = v then (1:Nat) else 0) = if v = u then 1 else 0 := by
  by_cases h : u = v
  · rw [if_pos h, if_pos h.symm]
  · rw [if_neg h, if_neg (fun e => h e.symm)]

theorem count_setE : ∀ (l : List FrontierEntry) (n : Nat), n < l.length →
    ∀ (a x : FrontierEntry),
    (l.set n a).count x + (if x = getE l n then 1 else 0)
      = l.count x + (if x = a then 1 else 0)
  | [], n, h, _, _ => absurd h (by simp)
  | b :: t, 0, _, a, x => by
    have hg : getE (b :: t) 0 = b := rfl
    rw [hg, List.set_cons_zero, List.count_cons, List.count_cons]
    simp only [beq_iff_eq]
    rw [ite_one_zero_comm a x, ite_one_zero_comm b x]
    split_ifs <;> omega
  | b :: t, n+1, h, a, x => by
    have ih := count_setE t n (by simpa using h) a x
    have hg : getE (b :: t) (n+1) = getE t n := rfl
    rw [hg, List.set_cons_succ, List.count_cons, List.count_cons]
    simp only [beq_iff_eq]
    rw [ite_one_zero_comm b x]
    split_ifs at ih ⊢ <;> omega

theorem count_swapE {l : List FrontierEntry} {i j : Nat}
    (hi : i < l.length) (hj : j < l.length) (x : FrontierEntry) :
    (swapE l i j).count x = l.count x := by
  unfold swapE
  have h3 : getE (l.set i (getE l j)) j = getE l j := by
    by_cases hij : j = i
    · subst hij
      exact getE_set_self hj _
    · rw [getE_set_ne hij]
  have h2 := count_setE (l.set i (getE l j)) j (by simpa using hj) (getE l i) x
  have h1 := count_setE l i hi (getE l j) x
  rw [h3] at h2
  split_ifs at h1 h2 <;> omega

theorem swapE_perm {l : List FrontierEntry} {i j : Nat}
    (hi : i < l.length) (hj : j < l.length) : List.Perm (swapE l i j) l :=
  List.perm_iff_count.mpr fun x => count_swapE hi hj x

/-! ### Lengths and permutations of the sift operations -/

theorem siftUpGo_length : ∀ (fuel : Nat) (l : List FrontierEntry) (start pos : Nat),
    (siftUpGo fuel l start pos).length = l.length := by
  intro fuel
  induction fuel with
  | zero => intro l start pos; rfl
  | succ fuel ih =>
    intro l start pos
    rw [siftUpGo]
    by_cases h : pos ≤ start
    · rw [if_pos h]
    · rw [if_neg h]
      dsimp only
      by_cases hle : entryLe (getE l pos) (getE l ((pos-1)/2)) = true
      · rw [if_pos hle]
      · rw [if_neg hle, ih, length_swapE]

theorem siftUp_length (l : List FrontierEntry) (start pos : Nat) :
    (siftUp l start pos).length = l.length :=
  siftUpGo_length _ l start pos

theorem siftUpGo_perm : ∀ (fuel : Nat) (l : List FrontierEntry) (start pos : Nat),
    pos < l.length → List.Perm (siftUpGo fuel l start pos) l := by
  intro fuel
  induction fuel with
  | zero => intro l start pos _; exact List.Perm.refl l
  | succ fuel ih =>
    intro l start pos hpos
    rw [siftUpGo]
    by_cases h : pos ≤ start
    · rw [if_pos h]
    · rw [if_neg h]
      dsimp only
      by_cases hle : entryLe (getE l pos) (getE l ((pos-1)/2)) = true
      · rw [if_pos hle]
      · rw [if_neg hle]
        have hpar : (pos - 1) / 2 < l.length := by omega
        refine List.Perm.trans (ih _ start _ ?_) (swapE_perm hpos hpar)
        rw [length_swapE]
        exact hpar

theorem siftUp_perm (l : List FrontierEntry) (start pos : Nat)
    (hpos : pos < l.length) : List.Perm (siftUp l start pos) l :=
  siftUpGo_perm _ l start pos hpos

/-- Length, permutation, bounds and childlessness of the hole-to-bottom
walk, in one statement. The fuel hypothesis `l.length ≤ fuel + pos` is met
by `sdbLoop`'s choice `fuel = l.length`. -/
theorem sdbLoopGo_spec : ∀ (fuel : Nat) (l : List FrontierEntry) (pos : Nat),
    pos < l.length → l.length ≤ fuel + pos →
    (sdbLoopGo fuel l pos).1.length = l.length ∧
    List.Perm (sdbLoopGo fuel l pos).1 l ∧
    (sdbLoopGo fuel l pos).2 < l.length ∧
    l.length ≤ 2 * (sdbLoopGo fuel l pos).2 + 1 ∧
    pos ≤ (sdbLoopGo fuel l pos).2 := by
  intro fuel
  induction fuel with
  | zero => intro l pos h hf; omega
  | succ fuel ih =>
    intro l pos h hf
    rw [sdbLoopGo]
    dsimp only
    by_cases h1 : 2 * pos + 1 + 1 < l.length
    · rw [if_pos h1]
      set c := (if entryLe (getE l (2*pos+1)) (getE l (2*pos+1+1))
          then 2*pos+1+1 else 2*pos+1) with hc
      have hcb : 2*pos+1 ≤ c ∧ c ≤ 2*pos+2 := by
        rw [hc]
        split <;> omega
      have hclen : c < l.length := by omega
      have hswlen : (swapE l pos c).length = l.length := length_swapE l pos c
      obtain ⟨i1, i2, i3, i4, i5⟩ :=
        ih (swapE l pos c) c (by omega) (by omega)
      rw [hswlen] at i1 i3 i4
      exact ⟨i1, List.Perm.trans i2 (swapE_perm h hclen), i3, i4, by omega⟩
    · rw [if_neg h1]
      by_cases h2 : 2 * pos + 1 + 1 = l.length
      · rw [if_pos h2]
        have hchild : 2 * pos + 1 < l.length := by omega
        exact ⟨length_swapE _ _ _, swapE_perm h hchild, by omega, by omega, by omega⟩
      · rw [if_neg h2]
        exact ⟨rfl, List.Perm.refl l, h, by omega, le_refl pos⟩

theorem sdbLoop_spec (l : List FrontierEntry) (pos : Nat) (h : pos < l.length) :
    (sdbLoop l pos).1.length = l.length ∧
    List.Perm (sdbLoop l pos).1 l ∧
    (sdbLoop l pos).2 < l.length ∧
    l.length ≤ 2 * (sdbLoop l pos).2 + 1 ∧
    pos ≤ (sdbLoop l pos).2 :=
  sdbLoopGo_spec l.length l pos h (by omega)

theorem siftDownToBottom_perm (l : List FrontierEntry) (pos : Nat)
    (h : pos < l.length) : List.Perm (siftDownToBottom l pos) l := by
  unfold siftDownToBottom
  obtain ⟨h1, h2, h3, _, _⟩ := sdbLoop_spec l pos h
  exact List.Perm.trans (siftUp_perm _ _ _ (by rw [h1]; exact h3)) h2

theorem heapPush_perm (l : List FrontierEntry) (x : FrontierEntry) :
    List.Perm (heapPush l x) (x :: l) := by
  unfold heapPush
  refine List.Perm.trans (siftUp_perm _ _ _ (by simp)) ?_
  exact List.perm_append_singleton x l

theorem edge_parent {i j : Nat} (h : Edge i j) : i = (j - 1) / 2 ∧ i < j := by
  rcases h with h | h <;> omega

theorem edge_pos {i j : Nat} (h : Edge i j) : 0 < j := by
  rcases h with h | h <;> omega

theorem edge_of_pos {j : Nat} (h : 0 < j) : Edge ((j-1)/2) j := by
  unfold Edge
  omega

/-- One `sift_up` swap step preserves `UpInv`, moving the violation up to
the parent slot. -/
theorem upInv_step {l : List FrontierEntry} {pos : Nat}
    (hpos : pos < l.length) (h0 : 0 < pos) (hinv : UpInv l pos)
    (hgt : ¬ entryLe (getE l pos) (getE l ((pos-1)/2)) = true) :
    UpInv (swapE l pos ((pos-1)/2)) ((pos-1)/2) := by
  have hlt : (getE l pos).depth < (getE l ((pos-1)/2)).depth := by
    rcases Nat.lt_or_ge (getE l pos).depth (getE l ((pos-1)/2)).depth with h | h
    · exact h
    · exact absurd (entryLe_iff.mpr h) hgt
  have hpar : (pos - 1) / 2 < l.length := by omega
  have hppos : (pos - 1) / 2 < pos := by omega
  constructor
  · intro i j hij hjl hjp
    rw [length_swapE] at hjl
    by_cases hjpos : j = pos
    · subst hjpos
      obtain ⟨hi, _⟩ := edge_parent hij
      subst hi
      rw [getE_swapE_fst hpos hpar, getE_swapE_snd hpar]
      exact Nat.le_of_lt hlt
    · have hjv : getE (swapE l pos ((pos-1)/2)) j = getE l j :=
        getE_swapE_other hjpos hjp
      rw [hjv]
      by_cases hipos : i = pos
      · subst hipos
        rw [getE_swapE_fst hpos hpar]
        exact hinv.2 h0 j hij hjl
      · by_cases hip : i = (pos-1)/2
        · subst hip
          rw [getE_swapE_snd hpar]
          exact Nat.le_of_lt (Nat.lt_of_lt_of_le hlt (hinv.1 _ _ hij hjl hjpos))
        · rw [getE_swapE_other hipos hip]
          exact hinv.1 _ _ hij hjl hjpos
  · intro hp0 j hpj hjl
    rw [length_swapE] at hjl
    have hgp : ((pos-1)/2 - 1) / 2 < (pos-1)/2 := by omega
    have hgpv : getE (swapE l pos ((pos-1)/2)) (((pos-1)/2 - 1) / 2)
        = getE l (((pos-1)/2 - 1) / 2) :=
      getE_swapE_other (by omega) (by omega)
    rw [hgpv]
    have hEgp : Edge (((pos-1)/2 - 1) / 2) ((pos-1)/2) := edge_of_pos hp0
    have hgple : (getE l (((pos-1)/2 - 1) / 2)).depth ≤ (getE l ((pos-1)/2)).depth :=
      hinv.1 _ _ hEgp hpar (by omega)
    by_cases hjpos : j = pos
    · subst hjpos
      rw [getE_swapE_fst hpos hpar]
      exact hgple
    · have hjne : j ≠ (pos-1)/2 := fun he => by
        obtain ⟨_, hlt2⟩ := edge_parent hpj
        omega
      rw [getE_swapE_other hjpos hjne]
      exact Nat.le_trans hgple (hinv.1 _ _ hpj hjl hjpos)

/-- Running `sift_up` from a slot satisfying `UpInv` restores the full
heap-order invariant (the `start` bound is 0, as in `push` and `pop`). -/
theorem siftUpGo_isHeap : ∀ (fuel : Nat) (l : List FrontierEntry) (pos : Nat),
    pos < fuel → pos < l.length → UpInv l pos → IsHeap (siftUpGo fuel l 0 pos) := by
  intro fuel
  induction fuel with
  | zero => intro l pos h; omega
  | succ fuel ih =>
    intro l pos hfuel hpos hinv
    rw [siftUpGo]
    by_cases hp0 : pos ≤ 0
    · rw [if_pos hp0]
      intro i j hij hjl
      exact hinv.1 i j hij hjl (by have := edge_pos hij; omega)
    · rw [if_neg hp0]
      dsimp only
      by_cases hle : entryLe (getE l pos) (getE l ((pos-1)/2)) = true
      · rw [if_pos hle]
        intro i j hij hjl
        by_cases hjpos : j = pos
        · subst hjpos
          obtain ⟨hi, _⟩ := edge_parent hij
          subst hi
          exact entryLe_iff.mp hle
        · exact hinv.1 i j hij hjl hjpos
      · rw [if_neg hle]
        have hpar : (pos - 1) / 2 < (swapE l pos ((pos-1)/2)).length := by
          rw [length_swapE]; omega
        exact ih _ _ (by omega) hpar (upInv_step hpos (by omega) hinv hle)

/-- `siftUp` with start 0 restores the heap-order invariant from `UpInv`. -/
theorem siftUp_isHeap (l : List FrontierEntry) (pos : Nat)
    (hpos : pos < l.length) (hinv : UpInv l pos) : IsHeap (siftUp l 0 pos) :=
  siftUpGo_isHeap (pos + 1) l pos (by omega) hpos hinv

/-- Appending a new element to a heap yields `UpInv` at the new last slot. -/
theorem upInv_push {l : List FrontierEntry} (h : IsHeap l) (x : FrontierEntry) :
    UpInv (l ++ [x]) l.length := by
  have hget : ∀ k, k < l.length → getE (l ++ [x]) k = getE l k := by
    intro k hk
    unfold getE
    rw [List.getD_append _ _ _ _ hk]
  constructor
  · intro i j hij hjl hjp
    have hjlen : j < l.length := by
      simp only [List.length_append, List.length_singleton] at hjl
      omega
    have hilen : i < l.length := by
      have := (edge_parent hij).2
      omega
    rw [hget i hilen, hget j hjlen]
    exact h i j hij hjlen
  · intro hp0 j hpj hjl
    simp only [List.length_append, List.length_singleton] at hjl
    rcases hpj with hj | hj <;> omega

/-- `BinaryHeap::push` preserves the heap-order invariant. -/
theorem heapPush_isHeap {l : List FrontierEntry} (h : IsHeap l)
    (x : FrontierEntry) : IsHeap (heapPush l x) := by
  unfold heapPush
  exact siftUp_isHeap (l ++ [x]) l.length (by simp) (upInv_push h x)

/-- One hole-to-bottom move preserves `DownInv`, provided the move goes to a
dominating child (`hmax`: the chosen child is at most as deep as every child
of `pos`). -/
theorem downInv_step {l : List FrontierEntry} {pos c : Nat}
    (hpos : pos < l.length) (hc : Edge pos c) (hcl : c < l.length)
    (hmax : ∀ j, Edge pos j → j < l.length →
      (getE l c).depth ≤ (getE l j).depth)
    (hinv : DownInv l pos) : DownInv (swapE l pos c) c := by
  have hposc : pos < c := (edge_parent hc).2
  constructor
  · intro i j hij hjl hic hjc
    rw [length_swapE] at hjl
    by_cases hjpos : j = pos
    · have hp0 : 0 < pos := by
        have := edge_pos hij
        omega
      have hi : i = (pos-1)/2 := by
        have := (edge_parent hij).1
        omega
      rw [hjpos, hi, getE_swapE_fst hpos hcl,
        getE_swapE_other (show (pos-1)/2 ≠ pos by omega)
          (show (pos-1)/2 ≠ c by omega)]
      exact hinv.2 hp0 c hc hcl
    · have hjv : getE (swapE l pos c) j = getE l j :=
        getE_swapE_other hjpos hjc
      rw [hjv]
      by_cases hipos : i = pos
      · rw [hipos, getE_swapE_fst hpos hcl]
        exact hmax j (hipos ▸ hij) hjl
      · rw [getE_swapE_other hipos hic]
        exact hinv.1 _ _ hij hjl hipos hjpos
  · intro _ j hcj hjl
    rw [length_swapE] at hjl
    have hparc : (c - 1) / 2 = pos := by
      rcases hc with h | h <;> omega
    rw [hparc, getE_swapE_fst hpos hcl]
    have hjc : j ≠ c := by
      have := (edge_parent hcj).2
      omega
    have hjpos : j ≠ pos := by
      have := (edge_parent hcj).2
      omega
    rw [getE_swapE_other hjpos hjc]
    exact hinv.1 _ _ hcj hjl (by omega) hjpos

/-- The hole-to-bottom walk preserves `DownInv` at the hole position. -/
theorem sdbLoopGo_downInv : ∀ (fuel : Nat) (l : List FrontierEntry) (pos : Nat),
    pos < l.length → DownInv l pos →
    DownInv (sdbLoopGo fuel l pos).1 (sdbLoopGo fuel l pos).2 := by
  intro fuel
  induction fuel with
  | zero => intro l pos _ hinv; exact hinv
  | succ fuel ih =>
    intro l pos h hinv
    rw [sdbLoopGo]
    dsimp only
    by_cases h1 : 2 * pos + 1 + 1 < l.length
    · rw [if_pos h1]
      set c := (if entryLe (getE l (2*pos+1)) (getE l (2*pos+1+1))
          then 2*pos+1+1 else 2*pos+1) with hc
      have hcb : 2*pos+1 ≤ c ∧ c ≤ 2*pos+2 := by
        rw [hc]
        split <;> omega
      have hclen : c < l.length := by omega
      have hEc : Edge pos c := by
        unfold Edge
        omega
      have hmax : ∀ j, Edge pos j → j < l.length →
          (getE l c).depth ≤ (getE l j).depth := by
        intro j hj hjl
        have hj2 : j = 2*pos+1 ∨ j = 2*pos+1+1 := by
          rcases hj with h | h <;> omega
        rw [hc]
        by_cases hle : entryLe (getE l (2*pos+1)) (getE l (2*pos+1+1)) = true
        · rw [if_pos hle]
          have hled := entryLe_iff.mp hle
          rcases hj2 with rfl | rfl
          · exact hled
          · exact le_refl _
        · rw [if_neg hle]
          have hled : (getE l (2*pos+1)).depth < (getE l (2*pos+1+1)).depth := by
            rcases Nat.lt_or_ge (getE l (2*pos+1)).depth
                (getE l (2*pos+1+1)).depth with hlt | hge
            · exact hlt
            · exact absurd (entryLe_iff.mpr hge) hle
          rcases hj2 with rfl | rfl
          · exact le_refl _
          · exact Nat.le_of_lt hled
      have hswlen : (swapE l pos c).length = l.length := length_swapE l pos c
      exact ih (swapE l pos c) c (by omega)
        (downInv_step h hEc hclen hmax hinv)
    · rw [if_neg h1]
      by_cases h2 : 2 * pos + 1 + 1 = l.length
      · rw [if_pos h2]
        have hchild : 2 * pos + 1 < l.length := by omega
        have hEc : Edge pos (2*pos+1) := Or.inl rfl
        have hmax : ∀ j, Edge pos j → j < l.length →
            (getE l (2*pos+1)).depth ≤ (getE l j).depth := by
          intro j hj hjl
          rcases hj with rfl | rfl
          · exact le_refl _
          · omega
        exact downInv_step h hEc hchild hmax hinv
      · rw [if_neg h2]
        exact hinv

/-- When the hole has reached a childless slot, `DownInv` gives `UpInv`. -/
theorem downInv_childless_upInv {l : List FrontierEntry} {pos : Nat}
    (hchild : l.length ≤ 2*pos+1) (hinv : DownInv l pos) : UpInv l pos := by
  constructor
  · intro i j hij hjl hjp
    by_cases hipos : i = pos
    · subst hipos
      rcases hij with rfl | rfl <;> omega
    · exact hinv.1 i j hij hjl hipos hjp
  · intro _ j hpj hjl
    rcases hpj with rfl | rfl <;> omega

/-- `sift_down_to_bottom(0)` on a vector that is a heap except at the root
restores the heap-order invariant. -/
theorem siftDownToBottom_isHeap {l : List FrontierEntry}
    (h0 : 0 < l.length) (hinv : DownInv l 0) :
    IsHeap (siftDownToBottom l 0) := by
  unfold siftDownToBottom
  obtain ⟨s1, _, s3, s4, _⟩ := sdbLoop_spec l 0 h0
  have hd : DownInv (sdbLoop l 0).1 (sdbLoop l 0).2 :=
    sdbLoopGo_downInv l.length l 0 h0 hinv
  have hup : UpInv (sdbLoop l 0).1 (sdbLoop l 0).2 :=
    downInv_childless_upInv (by rw [s1]; exact s4) hd
  exact siftUp_isHeap _ _ (by rw [s1]; exact s3) hup

/-- In a heap, the root is at most as deep as every element. -/
theorem isHeap_root_min {l : List FrontierEntry} (h : IsHeap l) :
    ∀ i, i < l.length → (getE l 0).depth ≤ (getE l i).depth := by
  intro i
  induction i using Nat.strong_induction_on with
  | _ i ih =>
    intro hi
    rcases Nat.eq_zero_or_pos i with rfl | hpos
    · exact le_refl _
    · exact Nat.le_trans (ih ((i-1)/2) (by omega) (by omega))
        (h _ _ (edge_of_pos hpos) hi)

theorem getE_append_lt {l₁ l₂ : List FrontierEntry} {k : Nat}
    (h : k < l₁.length) : getE (l₁ ++ l₂) k = getE l₁ k := by
  unfold getE
  rw [List.getD_append _ _ _ _ h]

theorem getE_dropLast {l : List FrontierEntry} {k : Nat}
    (hne : l ≠ []) (h : k < l.dropLast.length) :
    getE l.dropLast k = getE l k := by
  conv_rhs => rw [← List.dropLast_append_getLast hne]
  rw [getE_append_lt h]

/-- `heapPop` on the empty vector. -/
theorem heapPop_nil : heapPop [] = none := rfl

/-- `heapPop` never returns `none` on a non-empty vector. -/
theorem heapPop_ne_none {l : List FrontierEntry} (h : l ≠ []) :
    heapPop l ≠ none := by
  unfold heapPop
  rw [List.getLast?_eq_getLast l h]
  dsimp only
  split <;> simp

/-- What `BinaryHeap::pop` returns: the root, a permutation of the rest,
and — when the input satisfies the heap-order invariant — a heap. -/
theorem heapPop_spec {l : List FrontierEntry} {e : FrontierEntry}
    {q : List FrontierEntry} (hp : heapPop l = some (e, q)) :
    e = getE l 0 ∧ List.Perm (e :: q) l ∧ (IsHeap l → IsHeap q) := by
  unfold heapPop at hp
  cases hl : l.getLast? with
  | none => rw [hl] at hp; cases hp
  | some item =>
    rw [hl] at hp
    dsimp only at hp
    have hlne : l ≠ [] := by
      intro h
      rw [h] at hl
      cases hl
    have hitem : item = l.getLast hlne := by
      rw [List.getLast?_eq_getLast l hlne] at hl
      cases hl
      rfl
    have hdecomp : l.dropLast ++ [item] = l := by
      rw [hitem]
      exact List.dropLast_append_getLast hlne
    by_cases hrest : l.dropLast.isEmpty
    · rw [if_pos hrest] at hp
      injection hp with hpq
      have he : item = e := congrArg Prod.fst hpq
      have hq : ([] : List FrontierEntry) = q := congrArg Prod.snd hpq
      subst he
      subst hq
      have hl1 : l = [item] := by
        rw [← hdecomp, List.isEmpty_iff.mp hrest]
        rfl
      subst hl1
      refine ⟨rfl, List.Perm.refl _, fun _ => ?_⟩
      intro i j hij hjl
      have hj0 : j < 0 := hjl
      omega
    · rw [if_neg hrest] at hp
      injection hp with hpq
      have he : getE l.dropLast 0 = e := congrArg Prod.fst hpq
      have hq : siftDownToBottom (l.dropLast.set 0 item) 0 = q :=
        congrArg Prod.snd hpq
      subst he
      subst hq
      have hrlen : 0 < l.dropLast.length := by
        cases hd : l.dropLast with
        | nil => rw [hd] at hrest; simp at hrest
        | cons a t => simp [hd]
      have hroot : getE l.dropLast 0 = getE l 0 := getE_dropLast hlne hrlen
      have hsetlen : (l.dropLast.set 0 item).length = l.dropLast.length := by
        simp
      refine ⟨hroot, ?_, ?_⟩
      · have hperm1 : List.Perm (siftDownToBottom (l.dropLast.set 0 item) 0)
            (l.dropLast.set 0 item) :=
          siftDownToBottom_perm _ 0 (by rw [hsetlen]; exact hrlen)
        refine List.Perm.trans (List.Perm.cons _ hperm1) ?_
        cases hd : l.dropLast with
        | nil => rw [hd] at hrest; simp at hrest
        | cons a t =>
          show List.Perm (a :: item :: t) l
          have hperm2 : List.Perm (a :: item :: t) ((a :: t) ++ [item]) := by
            refine List.Perm.trans (List.Perm.swap item a t) ?_
            exact (List.perm_append_singleton item (a :: t)).symm
          rw [← hd, hdecomp] at hperm2
          exact hperm2
      · intro hheap
        apply siftDownToBottom_isHeap (by rw [hsetlen]; exact hrlen)
        constructor
        · intro i j hij hjl hi0 hj0
          rw [hsetlen] at hjl
          have hi1 : i < l.dropLast.length := by
            have := (edge_parent hij).2
            omega
          rw [getE_set_ne hj0, getE_set_ne hi0,
            getE_dropLast hlne hi1, getE_dropLast hlne hjl]
          refine hheap i j hij ?_
          have : l.dropLast.length = l.length - 1 := List.length_dropLast l
          omega
        · intro h0
          omega

/-- The push-if-new fold step (shared by `Frontier::new` and
`Frontier::add_discovered`) preserves queue-side invariants and only grows
the seen-set. -/
theorem foldPush_inv (depth : Nat) :
    ∀ (urls : List String) (queue : List FrontierEntry) (seen : List String)
      (emitted : List String),
    IsHeap queue → (∀ e ∈ queue, e.url ∈ seen) → (∀ u ∈ emitted, u ∈ seen) →
    (emitted ++ queue.map FrontierEntry.url).Nodup →
    let r := urls.foldl
      (fun (acc : List FrontierEntry × List String) raw =>
        match normalize_url raw with
        | some n => if n ∈ acc.2 then acc else (heapPush acc.1 ⟨n, depth⟩, n :: acc.2)
        | none => acc)
      (queue, seen)
    IsHeap r.1 ∧ (∀ e ∈ r.1, e.url ∈ r.2) ∧ (∀ u ∈ emitted, u ∈ r.2) ∧
    (emitted ++ r.1.map FrontierEntry.url).Nodup ∧
    (∀ u ∈ seen, u ∈ r.2) := by
  intro urls
  induction urls with
  | nil =>
    intro queue seen emitted h1 h2 h3 h4
    exact ⟨h1, h2, h3, h4, fun u hu => hu⟩
  | cons raw rest ih =>
    intro queue seen emitted h1 h2 h3 h4
    simp only [List.foldl_cons]
    cases hn : normalize_url raw with
    | none => exact ih queue seen emitted h1 h2 h3 h4
    | some n =>
      dsimp only
      by_cases hmem : n ∈ seen
      · rw [if_pos hmem]
        exact ih queue seen emitted h1 h2 h3 h4
      · rw [if_neg hmem]
        have hperm : List.Perm (heapPush queue ⟨n, depth⟩)
            ((⟨n, depth⟩ : FrontierEntry) :: queue) := heapPush_perm queue _
        have hq1 : IsHeap (heapPush queue ⟨n, depth⟩) := heapPush_isHeap h1 _
        have hq2 : ∀ e ∈ heapPush queue ⟨n, depth⟩, e.url ∈ n :: seen := by
          intro e he
          rcases List.mem_cons.mp (hperm.subset he) with rfl | he2
          · exact List.mem_cons_self _ _
          · exact List.mem_cons_of_mem _ (h2 e he2)
        have hq3 : ∀ u ∈ emitted, u ∈ n :: seen :=
          fun u hu => List.mem_cons_of_mem _ (h3 u hu)
        have hq4 : (emitted ++ (heapPush queue ⟨n, depth⟩).map
            FrontierEntry.url).Nodup := by
          have hpm : List.Perm
              (emitted ++ (heapPush queue ⟨n, depth⟩).map FrontierEntry.url)
              (n :: (emitted ++ queue.map FrontierEntry.url)) := by
            refine List.Perm.trans (List.Perm.append_left emitted
              (hperm.map FrontierEntry.url)) ?_
            simp only [List.map_cons]
            exact List.perm_middle
          refine hpm.nodup_iff.mpr ?_
          refine List.nodup_cons.mpr ⟨?_, h4⟩
          intro hin
          rcases List.mem_append.mp hin with hin | hin
          · exact hmem (h3 n hin)
          · obtain ⟨e, he, heq⟩ := List.mem_map.mp hin
            exact hmem (heq ▸ h2 e he)
        have := ih (heapPush queue ⟨n, depth⟩) (n :: seen) emitted hq1 hq2 hq3 hq4
        exact ⟨this.1, this.2.1, this.2.2.1, this.2.2.2.1,
          fun u hu => this.2.2.2.2 u (List.mem_cons_of_mem _ hu)⟩

/-- `Frontier::new` establishes the invariant with nothing emitted. -/
theorem frontierNew_stInv (seeds : List String) (maxDepth : Nat) :
    StInv (Frontier.new seeds maxDepth) [] := by
  unfold Frontier.new StInv
  dsimp only
  have h := foldPush_inv 0 seeds [] [] []
    (by intro i j _ hj; exact absurd hj (by simp))
    (by intro e he; cases he) (by intro u hu; cases hu) (by simp)
  dsimp only at h
  exact ⟨h.1, h.2.1, fun u hu => absurd hu (by simp), h.2.2.2.1⟩

/-- `Frontier::add_discovered` preserves the invariant. -/
theorem addDiscovered_stInv {f : Frontier} {emitted : List String}
    (h : StInv f emitted) (urls : List String) (depth : Nat) :
    StInv (f.addDiscovered urls depth) emitted := by
  unfold Frontier.addDiscovered
  by_cases hd : f.max_depth < depth
  · rw [if_pos hd]
    exact h
  · rw [if_neg hd]
    obtain ⟨h1, h2, h3, h4⟩ := h
    -- the fold over a Frontier is the fold over (queue, seen) componentwise
    have hfold : ∀ (us : List String) (g : Frontier),
        (us.foldl (fun acc raw =>
          match normalize_url raw with
          | some n =>
            if n ∈ acc.seen then acc
            else { acc with queue := heapPush acc.queue ⟨n, depth⟩,
                            seen := n :: acc.seen }
          | none => acc) g)
        = { g with
            queue := (us.foldl (fun (acc : List FrontierEntry × List String) raw =>
              match normalize_url raw with
              | some n => if n ∈ acc.2 then acc
                          else (heapPush acc.1 ⟨n, depth⟩, n :: acc.2)
              | none => acc) (g.queue, g.seen)).1,
            seen := (us.foldl (fun (acc : List FrontierEntry × List String) raw =>
              match normalize_url raw with
              | some n => if n ∈ acc.2 then acc
                          else (heapPush acc.1 ⟨n, depth⟩, n :: acc.2)
              | none => acc) (g.queue, g.seen)).2 } := by
      intro us
      induction us with
      | nil => intro g; rfl
      | cons r rest ih =>
        intro g
        simp only [List.foldl_cons]
        cases hn : normalize_url r with
        | none => rw [ih g]
        | some n =>
          dsimp only
          by_cases hmem : n ∈ g.seen
          · simp only [if_pos hmem]
            rw [ih g]
          · simp only [if_neg hmem]
            rw [ih { g with queue := heapPush g.queue ⟨n, depth⟩, seen := n :: g.seen }]
    rw [hfold urls f]
    have h5 := foldPush_inv depth urls f.queue f.seen emitted h1 h2 h3 h4
    dsimp only at h5
    unfold StInv
    dsimp only
    exact ⟨h5.1, h5.2.1, h5.2.2.1, h5.2.2.2.1⟩

/-- `Frontier::next` preserves the invariant, emitting the popped URL. -/
theorem next_stInv {f : Frontier} {emitted : List String} {u : String}
    {d : Nat} {f' : Frontier} (h : StInv f emitted)
    (hn : f.next = some ((u, d), f')) : StInv f' (emitted ++ [u]) := by
  unfold Frontier.next at hn
  cases hp : heapPop f.queue with
  | none => rw [hp] at hn; cases hn
  | some p =>
    obtain ⟨e, q⟩ := p
    rw [hp] at hn
    dsimp only at hn
    injection hn with hn1
    have hu : e.url = u := congrArg (Prod.fst ∘ Prod.fst) hn1
    have hf' : ({ f with queue := q, crawled := f.crawled + 1 } : Frontier) = f' :=
      congrArg Prod.snd hn1
    subst hf'
    obtain ⟨h1, h2, h3, h4⟩ := h
    obtain ⟨_, hperm, hheap⟩ := heapPop_spec hp
    refine ⟨hheap h1, ?_, ?_, ?_⟩
    · intro x hx
      exact h2 x (hperm.subset (List.mem_cons_of_mem _ hx))
    · intro v hv
      rcases List.mem_append.mp hv with hv | hv
      · exact h3 v hv
      · rcases List.mem_singleton.mp hv with rfl
        exact hu ▸ h2 e (hperm.subset (List.mem_cons_self _ _))
    · have hnd : (emitted ++ (e.url :: q.map FrontierEntry.url)).Nodup := by
        have hx := (List.Perm.append_left emitted
          (hperm.map FrontierEntry.url)).nodup_iff.mpr h4
        simpa using hx
      rw [List.append_assoc, List.singleton_append, ← hu]
      exact hnd

/-- The combined run-level invariant. -/
theorem runFrontier_stInv (ops : List FOp) :
    ∀ (f : Frontier) (emitted : List String), StInv f emitted →
    StInv (runFrontier f ops).1 (emitted ++ (runFrontier f ops).2.map Prod.fst) := by
  induction ops with
  | nil =>
    intro f emitted h
    simpa [runFrontier] using h
  | cons op rest ih =>
    intro f emitted h
    cases op with
    | add urls d =>
      rw [runFrontier]
      exact ih _ emitted (addDiscovered_stInv h urls d)
    | next =>
      rw [runFrontier]
      cases hn : f.next with
      | none =>
        dsimp only
        exact ih f emitted h
      | some p =>
        obtain ⟨⟨u, d⟩, f'⟩ := p
        dsimp only
        have h' := next_stInv h hn
        have := ih f' (emitted ++ [u]) h'
        simpa [List.append_assoc] using this

theorem mem_getE {l : List FrontierEntry} {e : FrontierEntry} (h : e ∈ l) :
    ∃ i, i < l.length ∧ getE l i = e := by
  obtain ⟨⟨i, hi⟩, hgi⟩ := List.mem_iff_get.mp h
  refine ⟨i, hi, ?_⟩
  unfold getE
  rw [List.getD_eq_getElem?_getD, List.getElem?_eq_getElem hi]
  simpa using hgi

/-- C4 (amended): over every sequence of `Construct`/`AddDiscovered`/`Next`
operations, `Frontier::next` pops an entry of minimal depth among all queued
entries. Among entries of equal depth the order is the binary heap's
internal order, not insertion order (see the counterexample): Rust's
`BinaryHeap` is not stable, and `FrontierEntry`'s `Ord` compares depth
only. -/
theorem c4_pop_min_depth (seeds : List String) (maxd : Nat) (ops : List FOp)
    (u : String) (d : Nat) (f' : Frontier)
    (h : ((runFrontier (Frontier.new seeds maxd) ops).1).next = some ((u, d), f')) :
    ∀ e ∈ (runFrontier (Frontier.new seeds maxd) ops).1.queue, d ≤ e.depth := by
  have hinv := runFrontier_stInv ops (Frontier.new seeds maxd) []
    (frontierNew_stInv seeds maxd)
  have hheap : IsHeap (runFrontier (Frontier.new seeds maxd) ops).1.queue := hinv.1
  unfold Frontier.next at h
  cases hp : heapPop (runFrontier (Frontier.new seeds maxd) ops).1.queue with
  | none => rw [hp] at h; cases h
  | some p =>
    obtain ⟨e0, q⟩ := p
    rw [hp] at h
    dsimp only at h
    injection h with h1
    have hd : e0.depth = d := congrArg (Prod.snd ∘ Prod.fst) h1
    obtain ⟨hroot, _, _⟩ := heapPop_spec hp
    intro e he
    obtain ⟨i, hi, hgi⟩ := mem_getE he
    have hmin := isHeap_root_min hheap i hi
    rw [hgi] at hmin
    rw [← hd, hroot]
    exact hmin

/-- C4 counterexample: equal-depth entries do **not** come out in insertion
order. Four distinct seeds, all at depth 0, inserted in the order a, b, c,
d, pop in the order a, c, b, d: after the first pop the heap's swap-remove
and `sift_down_to_bottom` reorder the remaining equal-depth entries. -/
theorem c4_counterexample :
    ((runFrontier (Frontier.new
        ["https://e.com/a", "https://e.com/b", "https://e.com/c", "https://e.com/d"] 3)
        [FOp.next, FOp.next, FOp.next, FOp.next]).2.map Prod.fst)
      = ["https://e.com/a", "https://e.com/c", "https://e.com/b", "https://e.com/d"] ∧
    (["https://e.com/a", "https://e.com/c", "https://e.com/b", "https://e.com/d"]
      : List String)
      ≠ ["https://e.com/a", "https://e.com/b", "https://e.com/c", "https://e.com/d"] := by
  exact ⟨by decide, by decide⟩

/-- Witness for `c4_pop_min_depth` at a concrete state: with two depth-0
seeds queued, the first pop's depth (0) bounds the remaining entry. -/
theorem c4_witness : (0 : Nat) ≤ FrontierEntry.depth ⟨"https://e.com/b", 0⟩ :=
  c4_pop_min_depth ["https://e.com/a", "https://e.com/b"] 3 [] "https://e.com/a" 0 _
    rfl ⟨"https://e.com/b", 0⟩ (by decide)

/-- C5: the frontier never emits the same normalized URL twice across its
lifetime — for any seed list, max depth and any sequence of
`AddDiscovered`/`Next` operations, the URLs returned by `Frontier::next`
are pairwise distinct (the seen-set persists after pops, so a popped URL is
never re-enqueued). -/
theorem c5_no_repeated_url (seeds : List String) (maxDepth : Nat)
    (ops : List FOp) :
    ((runFrontier (Frontier.new seeds maxDepth) ops).2.map Prod.fst).Nodup := by
  have hinv := runFrontier_stInv ops (Frontier.new seeds maxDepth) []
    (frontierNew_stInv seeds maxDepth)
  have h4 := hinv.2.2.2
  rw [List.nil_append] at h4
  exact h4.of_append_left

/-- C3 (code bug): the AI-bot blocked list computed at bootstrap is always
empty, whatever the robots.txt content — `run_crawl_job` calls
`blocked_bots("/")`, and `is_allowed` feeds `"/"` to `Url::parse`, which
fails on a bare path, so every bot is reported as allowed. In particular,
for the claim's content `"User-agent: GPTBot\nDisallow: /"` the list does
not contain GPTBot. The same rules evaluated on an absolute URL — the way
`robots.rs`'s own unit tests call `blocked_bots` — do block GPTBot,
confirming that the rules are parsed correctly and the `"/"` argument at
the call site is the slip. -/
theorem c3_bootstrap_blocklist_always_empty :
    (∀ content : String, ai_crawlers_blocked_bootstrap content = []) ∧
    ai_crawlers_blocked_bootstrap "User-agent: GPTBot\nDisallow: /" = [] ∧
    blocked_bots (parse_robots_txt "User-agent: GPTBot\nDisallow: /")
      "https://example.com/" = ["GPTBot"] := by
  refine ⟨fun content => rfl, rfl, by decide⟩

theorem mergeStep_inv {ph : Option String} {extUrls : List String}
    {st : MergeSt} (h : MergeInv st) (link : RenderedLink) :
    MergeInv (mergeStep ph extUrls st link) := by
  obtain ⟨h1, h2, h3, h4⟩ := h
  unfold mergeStep
  by_cases hnav : !is_navigable_url link.url
  · rw [if_pos hnav]
    exact ⟨h1, h2, h3, h4⟩
  · rw [if_neg hnav]
    cases hp : urlParse link.url with
    | none => exact ⟨h1, h2, h3, h4⟩
    | some pu =>
      dsimp only
      by_cases hsch : pu.schemeStr ≠ "http" ∧ pu.schemeStr ≠ "https"
      · rw [if_pos hsch]
        exact ⟨h1, h2, h3, h4⟩
      · rw [if_neg hsch]
        split
        · -- internal
          by_cases hmem : link.url ∈ st.iset
          · rw [if_pos hmem]
            exact ⟨h1, h2, h3, h4⟩
          · rw [if_neg hmem]
            refine ⟨?_, ?_, h3, h4⟩
            · exact List.Nodup.append h1 (List.nodup_singleton _)
                (by
                  intro a ha hb
                  rcases List.mem_singleton.mp hb with rfl
                  exact hmem ((h2 _).mp ha))
            · intro u
              constructor
              · intro hu
                rcases List.mem_append.mp hu with hu | hu
                · exact List.mem_cons_of_mem _ ((h2 u).mp hu)
                · rcases List.mem_singleton.mp hu with rfl
                  exact List.mem_cons_self _ _
              · intro hu
                rcases List.mem_cons.mp hu with rfl | hu
                · exact List.mem_append.mpr (Or.inr (List.mem_singleton.mpr rfl))
                · exact List.mem_append.mpr (Or.inl ((h2 u).mpr hu))
        · -- external
          have hst1 : MergeInv (if link.url ∈ st.eset then st
              else { st with eset := link.url :: st.eset,
                             me := st.me ++ [link.url] }) := by
            by_cases hmem : link.url ∈ st.eset
            · rw [if_pos hmem]
              exact ⟨h1, h2, h3, h4⟩
            · rw [if_neg hmem]
              refine ⟨h1, h2, ?_, ?_⟩
              · exact List.Nodup.append h3 (List.nodup_singleton _)
                  (by
                    intro a ha hb
                    rcases List.mem_singleton.mp hb with rfl
                    exact hmem ((h4 _).mp ha))
              · intro u
                constructor
                · intro hu
                  rcases List.mem_append.mp hu with hu | hu
                  · exact List.mem_cons_of_mem _ ((h4 u).mp hu)
                  · rcases List.mem_singleton.mp hu with rfl
                    exact List.mem_cons_self _ _
                · intro hu
                  rcases List.mem_cons.mp hu with rfl | hu
                  · exact List.mem_append.mpr (Or.inr (List.mem_singleton.mpr rfl))
                  · exact List.mem_append.mpr (Or.inl ((h4 u).mpr hu))
          split
          · exact hst1
          · exact ⟨hst1.1, hst1.2.1, hst1.2.2.1, hst1.2.2.2⟩

theorem mergeFold_inv (ph : Option String) (extUrls : List String) :
    ∀ (links : List RenderedLink) (st : MergeSt), MergeInv st →
    MergeInv (links.foldl (mergeStep ph extUrls) st) := by
  intro links
  induction links with
  | nil => intro st h; exact h
  | cons l rest ih =>
    intro st h
    rw [List.foldl_cons]
    exact ih _ (mergeStep_inv h l)

/-- C8: the link merge never duplicates a URL — whenever the static internal
and external lists are duplicate-free, so are the merged internal and
external lists (a URL present both statically and in the rendered list, or
twice in the rendered list, contributes exactly one entry). Rendered links
are skipped when unparseable, of non-http/https scheme, or of scheme
javascript/mailto/tel/data, and a new rendered link is internal iff its
host equals the page host. On the claim's concrete input the merged
internal list is exactly `[https://e.com/a, https://e.com/b]` and the
merged external list is empty. -/
theorem c8_merge_links_dedup :
    (∀ (si se : List String) (sd : List ExtractedLink)
       (r : Option (List RenderedLink)) (purl : String),
      si.Nodup → se.Nodup →
      (merge_links si se sd r purl).1.Nodup ∧
      (merge_links si se sd r purl).2.1.Nodup) ∧
    merge_links ["https://e.com/a"] [] []
      (some [⟨"https://e.com/a", "", ""⟩, ⟨"https://e.com/b", "", ""⟩,
             ⟨"mailto:x@y", "", ""⟩, ⟨"javascript:void(0)", "", ""⟩])
      "https://e.com/"
      = (["https://e.com/a", "https://e.com/b"], [], []) := by
  constructor
  · intro si se sd r purl hsi hse
    unfold merge_links
    match r with
    | none => exact ⟨hsi, hse⟩
    | some [] => exact ⟨hsi, hse⟩
    | some (l :: ls) =>
      dsimp only
      have hinv := mergeFold_inv ((urlParse purl).map UrlM.hostStr)
        (sd.map ExtractedLink.url) (l :: ls)
        ⟨si, se, si, se, sd⟩
        ⟨hsi, fun u => Iff.rfl, hse, fun u => Iff.rfl⟩
      exact ⟨hinv.1, hinv.2.2.1⟩
  · decide

/-- Witness for `c8_merge_links_dedup` at a concrete input. -/
theorem c8_witness :
    (merge_links ["https://e.com/a"] ["https://x.org/p"] []
      (some [⟨"https://e.com/a", "", ""⟩]) "https://e.com/").1.Nodup ∧
    (merge_links ["https://e.com/a"] ["https://x.org/p"] []
      (some [⟨"https://e.com/a", "", ""⟩]) "https://e.com/").2.1.Nodup :=
  c8_merge_links_dedup.1 ["https://e.com/a"] ["https://x.org/p"] []
    (some [⟨"https://e.com/a", "", ""⟩]) "https://e.com/"
    (by decide) (by decide)

/-- C10: the per-second rate handed to the limiters is at least 1 for every
config: `rate_limit_ms = 0` yields 2, positive `rate_limit_ms` yields
`max (1000 / rate_limit_ms) 1`, the fetcher stores the rate unchanged (its
`.max(1)` guard is already satisfied), and `NonZeroU32::new` on the stored
rate never fails. -/
theorem c10_rate_never_zero :
    (∀ ms, 1 ≤ ratePerSec ms) ∧
    ratePerSec 0 = 2 ∧
    (∀ ms, 0 < ms → ratePerSec ms = max (1000 / ms) 1) ∧
    (∀ ms, fetcherRate (ratePerSec ms) = ratePerSec ms) ∧
    (∀ ms, nonZeroU32New (fetcherRate (ratePerSec ms)) =
      some (ratePerSec ms)) := by
  have hpos : ∀ ms, 1 ≤ ratePerSec ms := by
    intro ms
    unfold ratePerSec
    split
    · exact le_max_right _ _
    · omega
  refine ⟨hpos, rfl, ?_, ?_, ?_⟩
  · intro ms hms
    unfold ratePerSec
    rw [if_pos hms]
  · intro ms
    have := hpos ms
    unfold fetcherRate
    omega
  · intro ms
    have h2 := hpos ms
    unfold fetcherRate nonZeroU32New
    rw [if_neg (by omega)]
    congr 1
    omega

/-- Witness for `c10_rate_never_zero` at concrete configs. -/
theorem c10_witness :
    1 ≤ ratePerSec 250 ∧ ratePerSec 0 = 2 ∧
    (0 < 250 ∧ ratePerSec 250 = max (1000 / 250) 1) ∧
    nonZeroU32New (fetcherRate (ratePerSec 0)) = some (ratePerSec 0) :=
  ⟨c10_rate_never_zero.1 250, c10_rate_never_zero.2.1,
   ⟨by decide, c10_rate_never_zero.2.2.1 250 (by decide)⟩,
   c10_rate_never_zero.2.2.2.2 0⟩

theorem fillGo_fields (c : RConfig) :
    ∀ (fuel : Nat) (st : RunnerSt),
    (fillGo c fuel st).sent = st.sent ∧
    (fillGo c fuel st).batch_pages = st.batch_pages ∧
    (fillGo c fuel st).batch_index = st.batch_index ∧
    (fillGo c fuel st).cancelled = st.cancelled ∧
    (fillGo c fuel st).pages_crawled = st.pages_crawled ∧
    (fillGo c fuel st).pages_errored = st.pages_errored := by
  intro fuel
  induction fuel with
  | zero => intro st; exact ⟨rfl, rfl, rfl, rfl, rfl, rfl⟩
  | succ n ih =>
    intro st
    unfold fillGo
    split
    · split
      · exact ⟨rfl, rfl, rfl, rfl, rfl, rfl⟩
      · cases hnext : st.frontier.next with
        | none => exact ⟨rfl, rfl, rfl, rfl, rfl, rfl⟩
        | some p =>
          obtain ⟨⟨url, depth⟩, f'⟩ := p
          exact ih _
    · exact ⟨rfl, rfl, rfl, rfl, rfl, rfl⟩

theorem fillGo_bound (c : RConfig) :
    ∀ (fuel : Nat) (st : RunnerSt),
    st.pages_crawled + st.inflight.length ≤ c.maxPages →
    (fillGo c fuel st).pages_crawled + (fillGo c fuel st).inflight.length ≤
      c.maxPages := by
  intro fuel
  induction fuel with
  | zero => intro st h; exact h
  | succ n ih =>
    intro st h
    unfold fillGo
    split
    · split
      · exact h
      · rename_i hgate
        cases hnext : st.frontier.next with
        | none => exact h
        | some p =>
          obtain ⟨⟨url, depth⟩, f'⟩ := p
          refine ih _ ?_
          simp only [List.length_append, List.length_cons, List.length_nil]
          omega
    · exact h

theorem sent_flush_inv {sent : List BatchM} {i : Nat} {pages : List String}
    (hinv : ∀ b ∈ sent, b.is_final = false) :
    ∀ b ∈ sent ++ [⟨i, false, pages⟩], b.is_final = false := by
  intro b hb
  rcases List.mem_append.mp hb with hb | hb
  · exact hinv b hb
  · rcases List.mem_singleton.mp hb with rfl
    rfl

theorem completeStep_sent {c : RConfig} {st : RunnerSt} {idx : Nat}
    {out : Outcome} {timer : Bool} {st' : RunnerSt}
    (h : completeStep c st idx out timer = some st')
    (hinv : ∀ b ∈ st.sent, b.is_final = false) :
    ∀ b ∈ st'.sent, b.is_final = false := by
  unfold completeStep at h
  cases hg : st.inflight[idx]? with
  | none => rw [hg] at h; cases h
  | some p =>
    obtain ⟨url, depth⟩ := p
    rw [hg] at h
    cases out with
    | ok links =>
      simp only [Option.some.injEq] at h
      split at h <;>
        [skip; skip] <;>
        by_cases hcond : ((decide
            (c.batchThreshold ≤ (st.batch_pages ++ [url]).length) || timer) &&
            !(st.batch_pages ++ [url]).isEmpty) = true <;>
        first
          | (rw [if_pos hcond] at h; subst h; exact sent_flush_inv hinv)
          | (rw [if_neg hcond] at h; subst h; exact hinv)
    | blocked =>
      simp only [Option.some.injEq] at h
      by_cases hcond : ((decide (c.batchThreshold ≤ st.batch_pages.length) ||
          timer) && !st.batch_pages.isEmpty) = true
      · rw [if_pos hcond] at h; subst h; exact sent_flush_inv hinv
      · rw [if_neg hcond] at h; subst h; exact hinv
    | errored =>
      simp only [Option.some.injEq] at h
      by_cases hcond : ((decide (c.batchThreshold ≤ st.batch_pages.length) ||
          timer) && !st.batch_pages.isEmpty) = true
      · rw [if_pos hcond] at h; subst h; exact sent_flush_inv hinv
      · rw [if_neg hcond] at h; subst h; exact hinv
    | panicked =>
      simp only [Option.some.injEq] at h
      by_cases hcond : ((decide (c.batchThreshold ≤ st.batch_pages.length) ||
          timer) && !st.batch_pages.isEmpty) = true
      · rw [if_pos hcond] at h; subst h; exact sent_flush_inv hinv
      · rw [if_neg hcond] at h; subst h; exact hinv

theorem completeStep_bound {c : RConfig} {st : RunnerSt} {idx : Nat}
    {out : Outcome} {timer : Bool} {st' : RunnerSt}
    (h : completeStep c st idx out timer = some st')
    (hinv : st.pages_crawled + st.inflight.length ≤ c.maxPages) :
    st'.pages_crawled + st'.inflight.length ≤ c.maxPages := by
  unfold completeStep at h
  cases hg : st.inflight[idx]? with
  | none => rw [hg] at h; cases h
  | some p =>
    obtain ⟨url, depth⟩ := p
    rw [hg] at h
    have hidx : idx < st.inflight.length := by
      by_contra hge
      rw [List.getElem?_eq_none (by omega)] at hg
      cases hg
    have hlen : (st.inflight.eraseIdx idx).length = st.inflight.length - 1 :=
      List.length_eraseIdx_of_lt hidx
    cases out with
    | ok links =>
      simp only [Option.some.injEq] at h
      split at h <;>
        by_cases hcond : ((decide
            (c.batchThreshold ≤ (st.batch_pages ++ [url]).length) || timer) &&
            !(st.batch_pages ++ [url]).isEmpty) = true <;>
        first
          | (rw [if_pos hcond] at h; subst h; dsimp only; rw [hlen]; omega)
          | (rw [if_neg hcond] at h; subst h; dsimp only; rw [hlen]; omega)
    | blocked =>
      simp only [Option.some.injEq] at h
      by_cases hcond : ((decide (c.batchThreshold ≤ st.batch_pages.length) ||
          timer) && !st.batch_pages.isEmpty) = true
      · rw [if_pos hcond] at h; subst h; dsimp only; rw [hlen]; omega
      · rw [if_neg hcond] at h; subst h; dsimp only; rw [hlen]; omega
    | errored =>
      simp only [Option.some.injEq] at h
      by_cases hcond : ((decide (c.batchThreshold ≤ st.batch_pages.length) ||
          timer) && !st.batch_pages.isEmpty) = true
      · rw [if_pos hcond] at h; subst h; dsimp only; rw [hlen]; omega
      · rw [if_neg hcond] at h; subst h; dsimp only; rw [hlen]; omega
    | panicked =>
      simp only [Option.some.injEq] at h
      by_cases hcond : ((decide (c.batchThreshold ≤ st.batch_pages.length) ||
          timer) && !st.batch_pages.isEmpty) = true
      · rw [if_pos hcond] at h; subst h; dsimp only; rw [hlen]; omega
      · rw [if_neg hcond] at h; subst h; dsimp only; rw [hlen]; omega

theorem runLoop_sent {c : RConfig} :
    ∀ (fuel : Nat) (st : RunnerSt) (evs : List REvent) (stR : RunnerSt),
    runLoop c fuel st evs = some stR →
    (∀ b ∈ st.sent, b.is_final = false) →
    ∀ b ∈ stR.sent, b.is_final = false := by
  intro fuel
  induction fuel with
  | zero => intro st evs stR h; exact absurd h (by simp [runLoop])
  | succ n ih =>
    intro st evs stR h hinv
    unfold runLoop at h
    have hfs : (fill c st).sent = st.sent := (fillGo_fields c c.maxWorkers st).1
    by_cases he : (fill c st).inflight.isEmpty
    · rw [if_pos he] at h
      replace h := Option.some.inj h
      subst h
      rw [hfs]
      exact hinv
    · rw [if_neg he] at h
      cases evs with
      | nil => cases h
      | cons ev rest =>
        cases ev with
        | cancel =>
          replace h := Option.some.inj h
          subst h
          intro b hb
          exact hinv b (hfs ▸ hb)
        | complete idx out timer =>
          dsimp only at h
          cases hc : completeStep c (fill c st) idx out timer with
          | none => rw [hc] at h; cases h
          | some st2 =>
            rw [hc] at h
            exact ih st2 rest stR h
              (completeStep_sent hc (fun b hb => hinv b (hfs ▸ hb)))

theorem runLoop_bound {c : RConfig} :
    ∀ (fuel : Nat) (st : RunnerSt) (evs : List REvent) (stR : RunnerSt),
    runLoop c fuel st evs = some stR →
    st.pages_crawled + st.inflight.length ≤ c.maxPages →
    stR.pages_crawled + stR.inflight.length ≤ c.maxPages := by
  intro fuel
  induction fuel with
  | zero => intro st evs stR h; exact absurd h (by simp [runLoop])
  | succ n ih =>
    intro st evs stR h hinv
    unfold runLoop at h
    have hfb : (fill c st).pages_crawled + (fill c st).inflight.length ≤
        c.maxPages := fillGo_bound c c.maxWorkers st hinv
    by_cases he : (fill c st).inflight.isEmpty
    · rw [if_pos he] at h
      replace h := Option.some.inj h
      subst h
      exact hfb
    · rw [if_neg he] at h
      cases evs with
      | nil => cases h
      | cons ev rest =>
        cases ev with
        | cancel =>
          replace h := Option.some.inj h
          subst h
          simp only [List.length_nil]
          omega
        | complete idx out timer =>
          dsimp only at h
          cases hc : completeStep c (fill c st) idx out timer with
          | none => rw [hc] at h; cases h
          | some st2 =>
            rw [hc] at h
            exact ih st2 rest stR h (completeStep_bound hc hfb)

/-- C1 (amended): the runner always hands exactly one `is_final = true`
batch to the callback emitter — the last one — whether the loop ended by
exhaustion or by cancellation: the in-loop flushes all carry
`is_final = false` and the final flush after the loop is unconditional. -/
theorem c1_final_flush_even_on_cancel (c : RConfig) (seeds : List String)
    (maxd : Nat) (evs : List REvent) (st : RunnerSt) (bs : List BatchM)
    (h : run_crawl_job c seeds maxd evs = some (st, bs)) :
    bs.dropLast.all (fun b => !b.is_final) = true ∧
    bs.getLast?.map BatchM.is_final = some true := by
  unfold run_crawl_job at h
  cases hr : runLoop c (evs.length + 1)
      ⟨Frontier.new seeds maxd, [], 0, 0, [], 0, [], false⟩ evs with
  | none => rw [hr] at h; cases h
  | some st0 =>
    rw [hr] at h
    simp only [Option.some.injEq, Prod.mk.injEq] at h
    obtain ⟨-, hbs⟩ := h
    subst hbs
    have hall : ∀ b ∈ st0.sent, b.is_final = false :=
      runLoop_sent (evs.length + 1) _ evs st0 hr (by intro b hb; cases hb)
    refine ⟨?_, ?_⟩
    · rw [List.dropLast_concat, List.all_eq_true]
      intro b hb
      simp [hall b hb]
    · rw [List.getLast?_concat]
      rfl

/-- The claim as stated is false: a run that ends by cancellation still
hands a `CrawlResultBatch` with `is_final = true` to the callback emitter
(the final flush after the loop is unconditional). -/
theorem c1_counterexample :
    (run_crawl_job ⟨1, 5, true, 10⟩ ["https://a.com/"] 2 [REvent.cancel]).map
      (fun r => (r.1.cancelled, r.2.map (fun b => (b.is_final, b.pages))))
      = some (true, [(true, [])]) := by
  rfl

/-- Witness for `c1_final_flush_even_on_cancel` on a cancelled run. -/
theorem c1_witness :
    ([⟨0, true, []⟩] : List BatchM).dropLast.all (fun b => !b.is_final)
      = true ∧
    ([⟨0, true, []⟩] : List BatchM).getLast?.map BatchM.is_final
      = some true :=
  c1_final_flush_even_on_cancel ⟨1, 5, true, 10⟩ ["https://a.com/"] 2
    [REvent.cancel] _ _ rfl

/-- C2 (amended): for every run — completed or cancelled — the final
`pages_crawled` is at most `max_pages`: the fill gate keeps
`pages_crawled + in-flight ≤ max_pages` and every success moves one
in-flight slot into `pages_crawled`. The claimed bound on
`pages_crawled + pages_errored` does not hold, because the gate counts no
errored page. -/
theorem c2_pages_crawled_le_max (c : RConfig) (seeds : List String)
    (maxd : Nat) (evs : List REvent) (st : RunnerSt) (bs : List BatchM)
    (h : run_crawl_job c seeds maxd evs = some (st, bs)) :
    st.pages_crawled ≤ c.maxPages := by
  unfold run_crawl_job at h
  cases hr : runLoop c (evs.length + 1)
      ⟨Frontier.new seeds maxd, [], 0, 0, [], 0, [], false⟩ evs with
  | none => rw [hr] at h; cases h
  | some st0 =>
    rw [hr] at h
    simp only [Option.some.injEq, Prod.mk.injEq] at h
    obtain ⟨hst, -⟩ := h
    have := runLoop_bound (evs.length + 1) _ evs st0 hr
      (by simp only [List.length_nil]; omega)
    rw [← hst]
    simp only []
    omega

/-- The claim as stated is false: with `max_pages = 1` and two seeds that
both fail, a run to completion without cancellation ends with
`pages_crawled = 0` and `pages_errored = 2`, so
`pages_crawled + pages_errored = 2 > 1 = max_pages` — the fill gate
`pages_crawled + join_set.len() >= max_pages` counts no errored page. -/
theorem c2_counterexample :
    (run_crawl_job ⟨2, 1, false, 10⟩ ["https://a.com/", "https://b.com/"] 0
      [REvent.complete 0 Outcome.errored false,
       REvent.complete 0 Outcome.errored false]).map
      (fun r => (r.1.cancelled, r.1.pages_crawled, r.1.pages_errored))
      = some (false, 0, 2) := by
  rfl

/-- Witness for `c2_pages_crawled_le_max` on a concrete empty run. -/
theorem c2_witness :
    RunnerSt.pages_crawled
      ⟨⟨[], [], 0, 0⟩, [], 0, 0, [], 0, [⟨0, true, []⟩], false⟩ ≤ 1 :=
  c2_pages_crawled_le_max ⟨2, 1, false, 10⟩ [] 0 [] _ _ rfl

theorem startsWithChars_append (p s : List Char) :
    startsWithChars (p ++ s) p = true := by
  induction p with
  | nil => cases s <;> rfl
  | cons c cs ih => simp [startsWithChars, ih]

theorem stripPrefixOrSelf_append (p s : List Char) :
    stripPrefixOrSelf p (p ++ s) = s := by
  unfold stripPrefixOrSelf
  rw [startsWithChars_append]
  simp [List.drop_left]

/-- C7: every outbound callback's `X-Signature` is exactly
`"hmac-sha256=" ++ hex(HMAC-SHA256(secret, timestamp ++ body))`, lowercase
hex, with the same timestamp string sent as `X-Timestamp` — the two
`mac.update` calls hash the concatenation. Concretely,
HMAC-SHA256("shared-secret", "1700000000" ++ "[]") gives the signature
checked against an independent implementation. -/
theorem c7_callback_signature (secret timestamp body : String) :
    (send_callback secret timestamp body).x_signature =
      "hmac-sha256=" ++ hexStr (hmacSha256 (strBytes secret)
        (strBytes timestamp ++ strBytes body)) ∧
    (send_callback secret timestamp body).x_timestamp = timestamp ∧
    (send_callback "shared-secret" "1700000000" "[]").x_signature =
      "hmac-sha256=169a6f539ea795c10eb6502489ee45e988e3cd08160238ae529fee6467533234" := by
  refine ⟨rfl, rfl, ?_⟩
  decide

/-- C6: `verify_hmac` rejects with 401 a timestamp drifting more than 300
seconds from server time; within the window it rejects with 400 a body over
`10 * 1024 * 1024` bytes; an acceptable body whose provided signature
(after stripping an optional `hmac-sha256=` prefix) differs from
`hex(HMAC-SHA256(secret, timestamp_str ++ body))` is rejected with 401; a
signature of exactly `"hmac-sha256=" ++` that hex passes through; and a
missing header is a 401. -/
theorem c6_verify_hmac_behaviour (secret : String) (now : Nat)
    (sig ts : String) (body : List Nat) (tsv : Nat)
    (hts : parseU64 ts = some tsv) :
    (300 < (if tsv ≤ now then now - tsv else tsv - now) →
      verify_hmac secret now (some sig) (some ts) body =
        VerifyResult.unauthorized "Timestamp too far from current time") ∧
    ((if tsv ≤ now then now - tsv else tsv - now) ≤ 300 →
      10 * 1024 * 1024 < body.length →
      verify_hmac secret now (some sig) (some ts) body =
        VerifyResult.badRequest "Failed to read request body") ∧
    ((if tsv ≤ now then now - tsv else tsv - now) ≤ 300 →
      body.length ≤ 10 * 1024 * 1024 →
      stripPrefixOrSelf "hmac-sha256=".data sig.data ≠
        hexEncode (hmacSha256 (strBytes secret) (strBytes ts ++ body)) →
      verify_hmac secret now (some sig) (some ts) body =
        VerifyResult.unauthorized "HMAC signature verification failed") ∧
    ((if tsv ≤ now then now - tsv else tsv - now) ≤ 300 →
      body.length ≤ 10 * 1024 * 1024 →
      sig = "hmac-sha256=" ++ hexStr (hmacSha256 (strBytes secret)
        (strBytes ts ++ body)) →
      verify_hmac secret now (some sig) (some ts) body =
        VerifyResult.pass) ∧
    verify_hmac secret now none (some ts) body =
      VerifyResult.unauthorized "Missing X-Signature header" ∧
    verify_hmac secret now (some sig) none body =
      VerifyResult.unauthorized "Missing X-Timestamp header" := by
  refine ⟨?_, ?_, ?_, ?_, rfl, rfl⟩
  · intro hdrift
    unfold verify_hmac MAX_TIMESTAMP_DRIFT_SECS
    dsimp only
    rw [hts]
    dsimp only
    rw [if_pos hdrift]
  · intro hdrift hbig
    unfold verify_hmac MAX_TIMESTAMP_DRIFT_SECS
    dsimp only
    rw [hts]
    dsimp only
    rw [if_neg (by omega), if_pos hbig]
  · intro hdrift hsize hne
    unfold verify_hmac MAX_TIMESTAMP_DRIFT_SECS
    dsimp only
    rw [hts]
    dsimp only
    rw [if_neg (by omega), if_neg (by omega)]
    rw [if_pos (Ne.symm hne)]
  · intro hdrift hsize hsig
    subst hsig
    unfold verify_hmac MAX_TIMESTAMP_DRIFT_SECS
    dsimp only
    rw [hts]
    dsimp only
    rw [if_neg (by omega), if_neg (by omega)]
    have hkey : stripPrefixOrSelf
        ['h', 'm', 'a', 'c', '-', 's', 'h', 'a', '2', '5', '6', '=']
        (("hmac-sha256=" ++
          hexStr (hmacSha256 (strBytes secret) (strBytes ts ++ body))).data)
        = hexEncode (hmacSha256 (strBytes secret) (strBytes ts ++ body)) := by
      rw [String.data_append]
      exact stripPrefixOrSelf_append _ _
    rw [hkey]
    simp

/-- Witness for `c6_verify_hmac_behaviour` at concrete requests: an
out-of-window timestamp is a 401, a wrong signature is a 401, and the
correct signature (body `"[]"`, bytes `[91, 93]`) passes. -/
theorem c6_witness :
    verify_hmac "shared-secret" 1700000400 (some "x") (some "1700000000")
      [91, 93]
      = VerifyResult.unauthorized "Timestamp too far from current time" ∧
    verify_hmac "shared-secret" 1700000200 (some "deadbeef")
      (some "1700000000") [91, 93]
      = VerifyResult.unauthorized "HMAC signature verification failed" ∧
    verify_hmac "shared-secret" 1700000200
      (some "hmac-sha256=169a6f539ea795c10eb6502489ee45e988e3cd08160238ae529fee6467533234")
      (some "1700000000") [91, 93]
      = VerifyResult.pass :=
  ⟨(c6_verify_hmac_behaviour "shared-secret" 1700000400 "x" "1700000000"
      [91, 93] 1700000000 (by decide)).1 (by decide),
   (c6_verify_hmac_behaviour "shared-secret" 1700000200 "deadbeef"
      "1700000000" [91, 93] 1700000000 (by decide)).2.2.1 (by decide)
      (by decide) (by decide),
   (c6_verify_hmac_behaviour "shared-secret" 1700000200
      "hmac-sha256=169a6f539ea795c10eb6502489ee45e988e3cd08160238ae529fee6467533234"
      "1700000000" [91, 93] 1700000000 (by decide)).2.2.2.1 (by decide)
      (by decide) (by decide)⟩

end Crawler
